import Mathlib

/-!
Verification development for the TFX repository fragments:
the infra-validator serving binaries (`serving_bins.py`) and the
experimental graph-partitioning subsystem (layering engine, subgraph
partitioner, multi-graph orchestrator).
-/

namespace TFX

/-- Sequencing of a fallible computation over a list, mirroring a Python
`for` loop that may raise: the first raised error propagates and no further
elements are processed. -/
def mapE {ε α β : Type} (l : List α) (f : α → Except ε β) : Except ε (List β) :=
  match l with
  | [] => .ok []
  | a :: as =>
    match f a with
    | .error e => .error e
    | .ok b =>
      match mapE as f with
      | .error e => .error e
      | .ok bs => .ok (b :: bs)

theorem mapE_ok_mem {ε α β : Type} {l : List α} {f : α → Except ε β} {l' : List β}
    (h : mapE l f = .ok l') : ∀ b ∈ l', ∃ a ∈ l, f a = .ok b := by
  induction l generalizing l' with
  | nil => simp [mapE] at h; subst h; simp
  | cons a as ih =>
    simp only [mapE] at h
    cases hfa : f a with
    | error e => rw [hfa] at h; exact absurd h (by simp)
    | ok b =>
      rw [hfa] at h
      cases hrest : mapE as f with
      | error e => rw [hrest] at h; exact absurd h (by simp)
      | ok bs =>
        rw [hrest] at h
        cases h
        intro x hx
        rcases List.mem_cons.mp hx with hx | hx
        · exact ⟨a, by simp, by rw [hfa, hx]⟩
        · rcases ih hrest x hx with ⟨a', ha', hfa'⟩
          exact ⟨a', by simp [ha'], hfa'⟩

theorem mapE_mem_ok {ε α β : Type} {l : List α} {f : α → Except ε β} {l' : List β}
    (h : mapE l f = .ok l') : ∀ a ∈ l, ∃ b ∈ l', f a = .ok b := by
  induction l generalizing l' with
  | nil => simp
  | cons a as ih =>
    simp only [mapE] at h
    cases hfa : f a with
    | error e => rw [hfa] at h; exact absurd h (by simp)
    | ok b =>
      rw [hfa] at h
      cases hrest : mapE as f with
      | error e => rw [hrest] at h; exact absurd h (by simp)
      | ok bs =>
        rw [hrest] at h
        cases h
        intro x hx
        rcases List.mem_cons.mp hx with hx | hx
        · subst hx; exact ⟨b, by simp, hfa⟩
        · rcases ih hrest x hx with ⟨b', hb', hfb'⟩
          exact ⟨b', by simp [hb'], hfb'⟩

theorem mapE_error_mem {ε α β : Type} {l : List α} {f : α → Except ε β} {e : ε}
    (h : mapE l f = .error e) : ∃ a ∈ l, f a = .error e := by
  induction l with
  | nil => simp [mapE] at h
  | cons a as ih =>
    simp only [mapE] at h
    cases hfa : f a with
    | error e' => rw [hfa] at h; cases h; exact ⟨a, by simp, hfa⟩
    | ok b =>
      rw [hfa] at h
      cases hrest : mapE as f with
      | error e' =>
        rw [hrest] at h; cases h
        rcases ih hrest with ⟨a', ha', hfa'⟩
        exact ⟨a', by simp [ha'], hfa'⟩
      | ok bs => rw [hrest] at h; exact absurd h (by simp)

theorem mapE_ok_of_all {ε α β : Type} {l : List α} {f : α → Except ε β} {h : α → β}
    (hall : ∀ a ∈ l, f a = .ok (h a)) : mapE l f = .ok (l.map h) := by
  induction l with
  | nil => simp [mapE]
  | cons a as ih =>
    simp only [mapE]
    rw [hall a (by simp), ih (fun a ha => hall a (by simp [ha]))]
    simp

/-! ## Serving binaries (`tfx/components/infra_validator/serving_bins.py`) -/

/-- Result of a successful `TensorFlowServing.__init__`: the stored model name
and the computed docker image reference (`TensorFlowServing._image`, exposed by
the `image` property). -/
structure TensorFlowServing where
  model_name : String
  image : String
deriving DecidableEq, Repr

/-- Constant `TensorFlowServing._DEFAULT_IMAGE_NAME`. -/
def defaultImageName : String := "tensorflow/serving"

/-- Image name resolution `image_name = image_name or self._DEFAULT_IMAGE_NAME`:
Python `or` falls back to the default when the argument is `None` or an empty
(falsy) string. -/
def resolveImageName (image_name : Option String) : String :=
  match image_name with
  | none => defaultImageName
  | some s => if s = "" then defaultImageName else s

/-- Embedding of `TensorFlowServing.__init__`: raises `ValueError` unless
exactly one of `tag` / `digest` is given, then builds the image reference with
`:` for a tag and `@` for a digest. -/
def tensorFlowServingInit (model_name : String) (image_name : Option String)
    (tag : Option String) (digest : Option String) : Except String TensorFlowServing :=
  if tag.isNone = digest.isNone then
    .error "Exactly one of tag or digest should be used."
  else
    let resolved := resolveImageName image_name
    match tag with
    | some t => .ok ⟨model_name, resolved ++ ":" ++ t⟩
    | none =>
      match digest with
      | some d => .ok ⟨model_name, resolved ++ "@" ++ d⟩
      | none => .error "Exactly one of tag or digest should be used."

/-- The `tensorflow_serving` message of a `ServingSpec`: proto3 string fields
default to the empty string, repeated fields to empty lists. -/
structure TensorFlowServingConfig where
  image_name : String
  tags : List String
  digests : List String
deriving DecidableEq, Repr

/-- A `ServingSpec` proto as consumed by `parse_serving_binaries`:
`serving_binary` models the result of `WhichOneof('serving_binary')`
(`none` when the oneof is unset). -/
structure ServingSpec where
  model_name : String
  serving_binary : Option String
  tensorflow_serving : TensorFlowServingConfig
deriving DecidableEq, Repr

/-- Embedding of `parse_serving_binaries`: for the `tensorflow_serving` oneof it
builds one `TensorFlowServing` per tag, then one per digest; any other oneof
value raises `ValueError`. -/
def parse_serving_binaries (spec : ServingSpec) : Except String (List TensorFlowServing) :=
  if spec.serving_binary = some "tensorflow_serving" then
    let config := spec.tensorflow_serving
    let image_name : Option String := if config.image_name = "" then none else some config.image_name
    match mapE config.tags (fun t => tensorFlowServingInit spec.model_name image_name (some t) none) with
    | .error e => .error e
    | .ok tagBins =>
      match mapE config.digests (fun d => tensorFlowServingInit spec.model_name image_name none (some d)) with
      | .error e => .error e
      | .ok digestBins => .ok (tagBins ++ digestBins)
  else
    .error "Invalid serving_binary"

/-! ## Lexicographic ordering of names

The layering engine must sort each layer lexicographically by name; we use an
explicit lexicographic comparison on the characters of the strings, which the
kernel can evaluate on concrete inputs. -/

/-- Lexicographic comparison of character lists, by code point. -/
def charListLe : List Char → List Char → Bool
  | [], _ => true
  | _ :: _, [] => false
  | a :: as, b :: bs =>
    if a.toNat < b.toNat then true
    else if b.toNat < a.toNat then false
    else charListLe as bs

/-- Lexicographic comparison of strings, by code point. -/
def strLe (a b : String) : Bool := charListLe a.data b.data

theorem charListLe_cons {a b : Char} {as bs : List Char} :
    charListLe (a :: as) (b :: bs) = true ↔
      (a.toNat < b.toNat ∨ (a.toNat = b.toNat ∧ charListLe as bs = true)) := by
  simp only [charListLe]
  rcases Nat.lt_trichotomy a.toNat b.toNat with h | h | h
  · simp [h]
  · simp [h, Nat.lt_irrefl]
  · have hne : a.toNat ≠ b.toNat := by omega
    simp [Nat.lt_asymm h, h, hne]

theorem char_toNat_inj {a b : Char} (h : a.toNat = b.toNat) : a = b :=
  Char.ext (UInt32.ext h)

theorem charListLe_total : ∀ as bs, charListLe as bs = true ∨ charListLe bs as = true := by
  intro as
  induction as with
  | nil => intro bs; left; simp [charListLe]
  | cons a as ih =>
    intro bs
    cases bs with
    | nil => right; simp [charListLe]
    | cons b bs =>
      rcases Nat.lt_trichotomy a.toNat b.toNat with h | h | h
      · exact Or.inl (charListLe_cons.mpr (Or.inl h))
      · rcases ih bs with h' | h'
        · exact Or.inl (charListLe_cons.mpr (Or.inr ⟨h, h'⟩))
        · exact Or.inr (charListLe_cons.mpr (Or.inr ⟨h.symm, h'⟩))
      · exact Or.inr (charListLe_cons.mpr (Or.inl h))

theorem charListLe_trans : ∀ as bs cs, charListLe as bs = true → charListLe bs cs = true →
    charListLe as cs = true := by
  intro as
  induction as with
  | nil => intro bs cs _ _; simp [charListLe]
  | cons a as ih =>
    intro bs cs h1 h2
    cases bs with
    | nil => simp [charListLe] at h1
    | cons b bs =>
      cases cs with
      | nil => simp [charListLe] at h2
      | cons c cs =>
        rcases charListLe_cons.mp h1 with hab | ⟨hab, h1'⟩ <;>
          rcases charListLe_cons.mp h2 with hbc | ⟨hbc, h2'⟩
        · exact charListLe_cons.mpr (Or.inl (Nat.lt_trans hab hbc))
        · exact charListLe_cons.mpr (Or.inl (by omega))
        · exact charListLe_cons.mpr (Or.inl (by omega))
        · exact charListLe_cons.mpr (Or.inr ⟨hab.trans hbc, ih bs cs h1' h2'⟩)

theorem charListLe_antisymm : ∀ as bs, charListLe as bs = true → charListLe bs as = true →
    as = bs := by
  intro as
  induction as with
  | nil =>
    intro bs _ h2
    cases bs with
    | nil => rfl
    | cons b bs => simp [charListLe] at h2
  | cons a as ih =>
    intro bs h1 h2
    cases bs with
    | nil => simp [charListLe] at h1
    | cons b bs =>
      rcases charListLe_cons.mp h1 with hab | ⟨hab, h1'⟩ <;>
        rcases charListLe_cons.mp h2 with hba | ⟨hba, h2'⟩ <;> try omega
      rw [char_toNat_inj hab, ih bs h1' h2']

theorem strLe_total : ∀ a b : String, strLe a b = true ∨ strLe b a = true :=
  fun a b => charListLe_total a.data b.data

theorem strLe_trans : ∀ a b c : String, strLe a b = true → strLe b c = true →
    strLe a c = true :=
  fun a b c => charListLe_trans a.data b.data c.data

theorem strLe_antisymm : ∀ a b : String, strLe a b = true → strLe b a = true → a = b := by
  intro a b h1 h2
  cases a; cases b
  exact congrArg String.mk (charListLe_antisymm _ _ h1 h2)

instance instIsTotalStrLe : IsTotal String (fun a b => strLe a b = true) := ⟨strLe_total⟩

instance instIsTransStrLe : IsTrans String (fun a b => strLe a b = true) :=
  ⟨fun a b c => strLe_trans a b c⟩

instance instIsAntisymmStrLe : IsAntisymm String (fun a b => strLe a b = true) :=
  ⟨fun a b => strLe_antisymm a b⟩

/-- Deterministic lexicographic sort of a list of names. -/
def sortNames (l : List String) : List String :=
  List.insertionSort (fun a b => strLe a b = true) l

theorem sortNames_sorted (l : List String) :
    List.Sorted (fun a b => strLe a b = true) (sortNames l) :=
  List.sorted_insertionSort _ l

theorem sortNames_perm (l : List String) : (sortNames l).Perm l :=
  List.perm_insertionSort _ l

theorem mem_sortNames {l : List String} {a : String} : a ∈ sortNames l ↔ a ∈ l :=
  (sortNames_perm l).mem_iff

/-! ## Remote-op layering engine

Modelled from the spec: the class `_RemoteOpLayers` of
`graph_partition.py` is not part of the provided sources (only its test is);
spec section 4.1 describes it as Kahn-style topological layering of the
remote-op relation map, emitting each layer sorted lexicographically and
raising `CycleError` when remaining names exist but none qualify. -/

/-- Error raised by the layering engine on a cyclic remote-op dependency. -/
inductive LayeringError where
  | cycleError
deriving DecidableEq, Repr

/-- A remote-op relation map: each entry maps a remote-op name to the list of
remote-op names it directly depends on. -/
def RelationMap : Type := List (String × List String)

/-- Condition for an entry to be assignable to the next layer: all its listed
dependencies already sit in earlier layers. -/
def depsDone (assigned : List String) (p : String × List String) : Bool :=
  p.2.all (fun d => d ∈ assigned)

/-- Modelled from the spec: one Kahn-style round per recursion step — collect
the remaining names whose dependencies are all assigned, emit them as the next
layer (sorted), and repeat; `CycleError` when no name qualifies. The fuel
argument only bounds the recursion and is chosen large enough at the top
level (each productive round assigns at least one name). -/
def layersAux (fuel : Nat) (remaining : List (String × List String))
    (assigned : List String) : Except LayeringError (List (List String)) :=
  match fuel with
  | 0 => if remaining.isEmpty then .ok [] else .error .cycleError
  | fuel + 1 =>
    if remaining.isEmpty then .ok []
    else
      let ready := remaining.filter (depsDone assigned)
      if ready.isEmpty then .error .cycleError
      else
        let layer := sortNames (ready.map Prod.fst)
        match layersAux fuel (remaining.filter (fun p => !depsDone assigned p))
            (assigned ++ layer) with
        | .ok rest => .ok (layer :: rest)
        | .error e => .error e

/-- Modelled from the spec: `_RemoteOpLayers(remote_op_relations)`, the ordered
sequence of layers for a remote-op relation map. -/
def RemoteOpLayers (rel : List (String × List String)) :
    Except LayeringError (List (List String)) :=
  layersAux rel.length rel []

theorem depsDone_iff {asg : List String} {p : String × List String} :
    depsDone asg p = true ↔ ∀ d ∈ p.2, d ∈ asg := by
  simp [depsDone]

theorem keys_nodup_inj :
    ∀ {l : List (String × List String)}, (l.map Prod.fst).Nodup →
      ∀ {p q : String × List String}, p ∈ l → q ∈ l → p.1 = q.1 → p = q := by
  intro l
  induction l with
  | nil => intro _ p q hp; simp at hp
  | cons a l ih =>
    intro hnd p q hp hq hpq
    rw [List.map_cons, List.nodup_cons] at hnd
    rcases List.mem_cons.mp hp with hp | hp <;> rcases List.mem_cons.mp hq with hq | hq
    · rw [hp, hq]
    · exfalso; apply hnd.1; rw [hp] at hpq; rw [hpq]
      exact List.mem_map_of_mem Prod.fst hq
    · exfalso; apply hnd.1; rw [hq] at hpq; rw [← hpq]
      exact List.mem_map_of_mem Prod.fst hp
    · exact ih hnd.2 hp hq hpq

theorem layersAux_join_perm :
    ∀ (fuel : Nat) (rem : List (String × List String)) (asg : List String)
      (layers : List (List String)), layersAux fuel rem asg = .ok layers →
      layers.join.Perm (rem.map Prod.fst) := by
  intro fuel
  induction fuel with
  | zero =>
    intro rem asg layers h
    simp only [layersAux] at h
    cases hrem : rem.isEmpty with
    | true => rw [hrem] at h; simp at h; subst h; simp [List.isEmpty_iff.mp hrem]
    | false => rw [hrem] at h; simp at h
  | succ fuel ih =>
    intro rem asg layers h
    simp only [layersAux] at h
    cases hrem : rem.isEmpty with
    | true => rw [hrem] at h; simp at h; subst h; simp [List.isEmpty_iff.mp hrem]
    | false =>
      rw [hrem] at h
      simp only [Bool.false_eq_true, if_false] at h
      cases hready : (rem.filter (depsDone asg)).isEmpty with
      | true => rw [hready] at h; simp at h
      | false =>
        rw [hready] at h
        simp only [Bool.false_eq_true, if_false] at h
        cases hrec : layersAux fuel (rem.filter (fun p => !depsDone asg p))
            (asg ++ sortNames ((rem.filter (depsDone asg)).map Prod.fst)) with
        | error e => rw [hrec] at h; simp at h
        | ok rest =>
          rw [hrec] at h
          simp only [Except.ok.injEq] at h
          subst h
          have h1 : (sortNames ((rem.filter (depsDone asg)).map Prod.fst)).Perm
              ((rem.filter (depsDone asg)).map Prod.fst) := sortNames_perm _
          have h2 := ih _ _ _ hrec
          have h3 : ((rem.filter (depsDone asg)).map Prod.fst ++
              (rem.filter (fun p => !depsDone asg p)).map Prod.fst).Perm (rem.map Prod.fst) := by
            rw [← List.map_append]
            exact (List.filter_append_perm (depsDone asg) rem).map Prod.fst
          have hjoin : (sortNames ((rem.filter (depsDone asg)).map Prod.fst) :: rest).join
              = sortNames ((rem.filter (depsDone asg)).map Prod.fst) ++ rest.join := rfl
          rw [hjoin]
          exact (h1.append h2).trans h3

theorem layersAux_sorted :
    ∀ (fuel : Nat) (rem : List (String × List String)) (asg : List String)
      (layers : List (List String)), layersAux fuel rem asg = .ok layers →
      ∀ l ∈ layers, l.Sorted (fun a b => strLe a b = true) := by
  intro fuel
  induction fuel with
  | zero =>
    intro rem asg layers h
    simp only [layersAux] at h
    cases hrem : rem.isEmpty with
    | true => rw [hrem] at h; simp at h; subst h; simp
    | false => rw [hrem] at h; simp at h
  | succ fuel ih =>
    intro rem asg layers h
    simp only [layersAux] at h
    cases hrem : rem.isEmpty with
    | true => rw [hrem] at h; simp at h; subst h; simp
    | false =>
      rw [hrem] at h
      simp only [Bool.false_eq_true, if_false] at h
      cases hready : (rem.filter (depsDone asg)).isEmpty with
      | true => rw [hready] at h; simp at h
      | false =>
        rw [hready] at h
        simp only [Bool.false_eq_true, if_false] at h
        cases hrec : layersAux fuel (rem.filter (fun p => !depsDone asg p))
            (asg ++ sortNames ((rem.filter (depsDone asg)).map Prod.fst)) with
        | error e => rw [hrec] at h; simp at h
        | ok rest =>
          rw [hrec] at h
          simp only [Except.ok.injEq] at h
          subst h
          intro l hl
          rcases List.mem_cons.mp hl with hl | hl
          · rw [hl]; exact sortNames_sorted _
          · exact ih _ _ _ hrec l hl

theorem layersAux_succ_ok {fuel : Nat} {rem : List (String × List String)} {asg : List String}
    {layers : List (List String)} (hrem : rem.isEmpty = false)
    (h : layersAux (fuel + 1) rem asg = .ok layers) :
    ∃ rest, (rem.filter (depsDone asg)).isEmpty = false ∧
      layersAux fuel (rem.filter (fun p => !depsDone asg p))
        (asg ++ sortNames ((rem.filter (depsDone asg)).map Prod.fst)) = .ok rest ∧
      layers = sortNames ((rem.filter (depsDone asg)).map Prod.fst) :: rest := by
  simp only [layersAux, hrem, Bool.false_eq_true, if_false] at h
  cases hready : (rem.filter (depsDone asg)).isEmpty with
  | true => rw [hready] at h; simp at h
  | false =>
    rw [hready] at h
    simp only [Bool.false_eq_true, if_false] at h
    cases hrec : layersAux fuel (rem.filter (fun p => !depsDone asg p))
        (asg ++ sortNames ((rem.filter (depsDone asg)).map Prod.fst)) with
    | error e => rw [hrec] at h; simp at h
    | ok rest =>
      rw [hrec] at h
      simp only [Except.ok.injEq] at h
      exact ⟨rest, rfl, rfl, h.symm⟩

theorem layersAux_deps_earlier :
    ∀ (fuel : Nat) (rem : List (String × List String)) (asg : List String)
      (layers : List (List String)), layersAux fuel rem asg = .ok layers →
      (rem.map Prod.fst).Nodup →
      ∀ (i : Nat) (hi : i < layers.length) (p : String × List String), p ∈ rem →
        p.1 ∈ layers.get ⟨i, hi⟩ → ∀ d ∈ p.2, d ∈ asg ∨
          ∃ (j : Nat) (hj : j < layers.length), j < i ∧ d ∈ layers.get ⟨j, hj⟩ := by
  intro fuel
  induction fuel with
  | zero =>
    intro rem asg layers h _ i hi p hp
    simp only [layersAux] at h
    cases hrem : rem.isEmpty with
    | true =>
      rw [hrem] at h; simp at h; subst h
      exact absurd hi (by simp)
    | false => rw [hrem] at h; simp at h
  | succ fuel ih =>
    intro rem asg layers h hnd i hi p hp hpl d hd
    cases hrem : rem.isEmpty with
    | true =>
      rw [List.isEmpty_iff.mp hrem] at hp
      exact absurd hp (by simp)
    | false =>
      rcases layersAux_succ_ok hrem h with ⟨rest, hready, hrec, hlayers⟩
      subst hlayers
      cases i with
      | zero =>
        have hpl0 : p.1 ∈ sortNames ((rem.filter (depsDone asg)).map Prod.fst) := hpl
        rcases List.mem_map.mp (mem_sortNames.mp hpl0) with ⟨q, hq, hq1⟩
        have hqrem : q ∈ rem := List.mem_of_mem_filter hq
        have hqdone : depsDone asg q = true := List.of_mem_filter hq
        have hqp : q = p := keys_nodup_inj hnd hqrem hp hq1
        left
        exact depsDone_iff.mp (hqp ▸ hqdone) d hd
      | succ i =>
        by_cases hdone : depsDone asg p = true
        · left; exact depsDone_iff.mp hdone d hd
        · have hp' : p ∈ rem.filter (fun q => !depsDone asg q) :=
            List.mem_filter.mpr ⟨hp, by simp [hdone]⟩
          have hnd' : ((rem.filter (fun q => !depsDone asg q)).map Prod.fst).Nodup :=
            hnd.sublist ((List.filter_sublist rem).map Prod.fst)
          have hi' : i < rest.length := by simpa using Nat.lt_of_succ_lt_succ hi
          have hpl' : p.1 ∈ rest.get ⟨i, hi'⟩ := hpl
          rcases ih _ _ _ hrec hnd' i hi' p hp' hpl' d hd with hasg | ⟨j, hj, hji, hdj⟩
          · rcases List.mem_append.mp hasg with hl | hl
            · exact Or.inl hl
            · refine Or.inr ⟨0, by simp, Nat.zero_lt_succ i, ?_⟩
              exact hl
          · refine Or.inr ⟨j + 1, by simpa using Nat.succ_lt_succ hj, Nat.succ_lt_succ hji, ?_⟩
            exact hdj

theorem RemoteOpLayers_layer_zero {rel : List (String × List String)}
    {layers : List (List String)} (h : RemoteOpLayers rel = .ok layers) :
    ∀ nm, nm ∈ layers.headD [] ↔ ∃ p ∈ rel, p.1 = nm ∧ p.2 = [] := by
  intro nm
  cases rel with
  | nil =>
    simp only [RemoteOpLayers, layersAux] at h
    simp at h
    subst h
    simp
  | cons a as =>
    have hrem : ((a :: as) : List (String × List String)).isEmpty = false := by simp
    rcases layersAux_succ_ok hrem h with ⟨rest, hready, hrec, hlayers⟩
    subst hlayers
    simp only [List.headD_cons]
    constructor
    · intro hnm
      rcases List.mem_map.mp (mem_sortNames.mp hnm) with ⟨q, hq, hq1⟩
      refine ⟨q, List.mem_of_mem_filter hq, hq1, ?_⟩
      have hqdone : depsDone [] q = true := List.of_mem_filter hq
      have := depsDone_iff.mp hqdone
      cases hq2 : q.2 with
      | nil => rfl
      | cons d ds => exact absurd (this d (by rw [hq2]; simp)) (by simp)
    · rintro ⟨p, hp, hp1, hp2⟩
      apply mem_sortNames.mpr
      apply List.mem_map.mpr
      refine ⟨p, List.mem_filter.mpr ⟨hp, ?_⟩, hp1⟩
      rw [depsDone, hp2]
      simp

theorem layersAux_cycle_not_ok :
    ∀ (fuel : Nat) (rem : List (String × List String)) (asg : List String)
      (S : List String), S ≠ [] →
      (∀ s ∈ S, s ∈ rem.map Prod.fst) →
      (∀ s ∈ S, s ∉ asg) →
      (∀ p ∈ rem, p.1 ∈ S → ∃ d ∈ p.2, d ∈ S) →
      (rem.map Prod.fst).Nodup →
      ∀ layers, layersAux fuel rem asg ≠ .ok layers := by
  intro fuel
  induction fuel with
  | zero =>
    intro rem asg S hS hSrem _ _ _ layers h
    have hrem : rem.isEmpty = false := by
      cases rem with
      | nil =>
        rcases S with _ | ⟨s, S⟩
        · exact absurd rfl hS
        · exact absurd (hSrem s (by simp)) (by simp)
      | cons a as => simp
    simp [layersAux, hrem] at h
  | succ fuel ih =>
    intro rem asg S hS hSrem hSasg hScyc hnd layers h
    have hrem : rem.isEmpty = false := by
      cases rem with
      | nil =>
        rcases S with _ | ⟨s, S⟩
        · exact absurd rfl hS
        · exact absurd (hSrem s (by simp)) (by simp)
      | cons a as => simp
    rcases layersAux_succ_ok hrem h with ⟨rest, hready, hrec, hlayers⟩
    have hSnotready : ∀ s ∈ S, s ∉ sortNames ((rem.filter (depsDone asg)).map Prod.fst) := by
      intro s hs hmem
      rcases List.mem_map.mp (mem_sortNames.mp hmem) with ⟨q, hq, hq1⟩
      have hqrem : q ∈ rem := List.mem_of_mem_filter hq
      have hqdone : depsDone asg q = true := List.of_mem_filter hq
      rcases hScyc q hqrem (hq1 ▸ hs) with ⟨d, hd, hdS⟩
      exact hSasg d hdS (depsDone_iff.mp hqdone d hd)
    refine ih (rem.filter (fun q => !depsDone asg q))
      (asg ++ sortNames ((rem.filter (depsDone asg)).map Prod.fst)) S hS ?_ ?_ ?_ ?_ rest hrec
    · intro s hs
      rcases List.mem_map.mp (hSrem s hs) with ⟨p, hp, hp1⟩
      apply List.mem_map.mpr
      refine ⟨p, List.mem_filter.mpr ⟨hp, ?_⟩, hp1⟩
      rcases hScyc p hp (hp1 ▸ hs) with ⟨d, hd, hdS⟩
      have : depsDone asg p = false := by
        cases hdp : depsDone asg p with
        | false => rfl
        | true => exact absurd (depsDone_iff.mp hdp d hd) (hSasg d hdS)
      simp [this]
    · intro s hs hmem
      rcases List.mem_append.mp hmem with hmem | hmem
      · exact hSasg s hs hmem
      · exact hSnotready s hs hmem
    · intro p hp; exact hScyc p (List.mem_of_mem_filter hp)
    · exact hnd.sublist ((List.filter_sublist rem).map Prod.fst)

theorem RemoteOpLayers_cycle {rel : List (String × List String)} {S : List String}
    (hS : S ≠ []) (hSrel : ∀ s ∈ S, s ∈ rel.map Prod.fst)
    (hScyc : ∀ p ∈ rel, p.1 ∈ S → ∃ d ∈ p.2, d ∈ S)
    (hnd : (rel.map Prod.fst).Nodup) :
    RemoteOpLayers rel = .error .cycleError := by
  cases hres : RemoteOpLayers rel with
  | ok layers =>
    exact absurd hres
      (layersAux_cycle_not_ok rel.length rel [] S hS hSrel (by simp) hScyc hnd layers)
  | error e => cases e; rfl

theorem perm_isEmpty_eq {α : Type} {l l' : List α} (h : l.Perm l') : l.isEmpty = l'.isEmpty := by
  cases l <;> cases l'
  · rfl
  · have := h.length_eq; simp at this
  · have := h.length_eq; simp at this
  · rfl

theorem sortNames_eq_of_perm {l l' : List String} (h : l.Perm l') :
    sortNames l = sortNames l' :=
  List.eq_of_perm_of_sorted ((sortNames_perm l).trans (h.trans (sortNames_perm l').symm))
    (sortNames_sorted l) (sortNames_sorted l')

theorem layersAux_perm_eq :
    ∀ (fuel : Nat) (rem rem' : List (String × List String)) (asg : List String),
      rem.Perm rem' → layersAux fuel rem asg = layersAux fuel rem' asg := by
  intro fuel
  induction fuel with
  | zero =>
    intro rem rem' asg hper
    simp only [layersAux]
    rw [perm_isEmpty_eq hper]
  | succ fuel ih =>
    intro rem rem' asg hper
    have hready : ((rem.filter (depsDone asg)).map Prod.fst).Perm
        ((rem'.filter (depsDone asg)).map Prod.fst) := (hper.filter _).map Prod.fst
    have hlayer : sortNames ((rem.filter (depsDone asg)).map Prod.fst) =
        sortNames ((rem'.filter (depsDone asg)).map Prod.fst) := sortNames_eq_of_perm hready
    simp only [layersAux]
    rw [perm_isEmpty_eq hper, perm_isEmpty_eq (hper.filter (depsDone asg)), hlayer,
      ih _ _ _ (hper.filter (fun p => !depsDone asg p))]

theorem RemoteOpLayers_perm_eq {rel rel' : List (String × List String)}
    (hper : rel.Perm rel') : RemoteOpLayers rel = RemoteOpLayers rel' := by
  rw [RemoteOpLayers, RemoteOpLayers, hper.length_eq, layersAux_perm_eq _ _ _ _ hper]

/-! ## Subgraph partitioner

Modelled from the spec: `partition_graph` / `partition_all_graphs` of
`graph_partition.py` are not part of the provided sources (only their test
is). Spec sections 3, 4.2 and 4.3 describe the data model (nodes with a name,
an operation kind, input references by name and a remote-op marker), the
backward traversal with boundary cuts, the grouping of outputs whose
traversals overlap in a non-remote node, and the per-graph orchestration. -/

/-- A graph node: unique name, operation kind, ordered input references by
name, and the marker for a remote op (a call boundary). -/
structure Node where
  name : String
  op_kind : String
  inputs : List String
  is_remote_op : Bool
deriving DecidableEq, Repr

/-- The unit of partitioned output: either a subgraph spec (owns a subgraph,
`is_remote_op = false`) or a remote-op spec (no subgraph, one output name,
`is_remote_op = true`). -/
structure ExecutionSpec where
  subgraph : Option (List Node)
  input_names : List String
  output_names : List String
  is_remote_op : Bool
deriving DecidableEq, Repr

/-- Errors of the subgraph partitioner: a dangling input reference, or a
declared output name that is absent from the graph. -/
inductive PartitionError where
  | missingNodeError (name : String)
  | unresolvedOutputError (name : String)
deriving DecidableEq, Repr

/-- Node lookup by name. -/
def lookupNode (g : List Node) (name : String) : Option Node :=
  g.find? (fun n => n.name = name)

/-- Whether a name refers to a remote op of the graph. -/
def isRemoteName (g : List Node) (x : String) : Bool :=
  match lookupNode g x with
  | some nd => nd.is_remote_op
  | none => false

/-- Number of graph node names not yet visited; the primary termination
measure of the backward traversal. -/
def unseenCount (g : List Node) (visited : List String) : Nat :=
  ((g.map Node.name).filter (fun a => decide (a ∉ visited))).length

theorem length_filter_le_of_imp {α : Type} (l : List α) (p q : α → Bool)
    (h : ∀ a, p a = true → q a = true) : (l.filter p).length ≤ (l.filter q).length := by
  induction l with
  | nil => simp
  | cons a as ih =>
    by_cases hp : p a = true
    · have hq := h a hp
      simp only [List.filter_cons, hp, hq, if_true, List.length_cons]
      omega
    · have hp' : p a = false := by revert hp; cases p a <;> simp
      simp only [List.filter_cons, hp', Bool.false_eq_true, if_false]
      cases hq : q a with
      | false => simp only [Bool.false_eq_true, if_false]; exact ih
      | true => simp only [if_true, List.length_cons]; omega

theorem filter_notmem_cons_lt :
    ∀ (l : List String) (f : String) (vis : List String), f ∈ l → f ∉ vis →
      (l.filter (fun a => decide (a ∉ f :: vis))).length <
        (l.filter (fun a => decide (a ∉ vis))).length := by
  intro l f vis hf hnv
  induction l with
  | nil => simp at hf
  | cons b bs ih =>
    have himp : ∀ a : String, decide (a ∉ f :: vis) = true → decide (a ∉ vis) = true := by
      intro a ha
      simp only [decide_eq_true_eq] at ha ⊢
      exact fun hav => ha (List.mem_cons_of_mem f hav)
    rcases List.mem_cons.mp hf with hb | hb
    · subst hb
      have h1 : decide (f ∉ f :: vis) = false := by simp
      have h2 : decide (f ∉ vis) = true := by simpa using hnv
      simp only [List.filter_cons, h1, h2, Bool.false_eq_true, if_false, if_true,
        List.length_cons]
      have := length_filter_le_of_imp bs _ _ himp
      omega
    · by_cases hbf : b = f
      · have h1 : decide (b ∉ f :: vis) = false := by simp [hbf]
        have h2 : decide (b ∉ vis) = true := by simp [hbf]; exact hnv
        simp only [List.filter_cons, h1, h2, Bool.false_eq_true, if_false, if_true,
          List.length_cons]
        have := ih hb
        omega
      · by_cases hbv : b ∈ vis
        · have h1 : decide (b ∉ f :: vis) = false := by simp [hbv]
          have h2 : decide (b ∉ vis) = false := by simp [hbv]
          simp only [List.filter_cons, h1, h2, Bool.false_eq_true, if_false]
          exact ih hb
        · have h1 : decide (b ∉ f :: vis) = true := by simp [hbf, hbv]
          have h2 : decide (b ∉ vis) = true := by simp [hbv]
          simp only [List.filter_cons, h1, h2, if_true, List.length_cons]
          have := ih hb
          omega

theorem unseenCount_lt {g : List Node} {vis : List String} {f : String}
    (hf : f ∈ g.map Node.name) (hnv : f ∉ vis) :
    unseenCount g (f :: vis) < unseenCount g vis :=
  filter_notmem_cons_lt (g.map Node.name) f vis hf hnv

/-- Largest input arity over the graph; used to bound the frontier growth of
one traversal step. -/
def maxInputs (g : List Node) : Nat :=
  g.foldr (fun n m => Nat.max n.inputs.length m) 0

theorem inputs_le_maxInputs : ∀ {g : List Node} {n : Node}, n ∈ g →
    n.inputs.length ≤ maxInputs g := by
  intro g
  induction g with
  | nil => intro n hn; simp at hn
  | cons a as ih =>
    intro n hn
    rcases List.mem_cons.mp hn with hn | hn
    · subst hn; exact Nat.le_max_left _ _
    · exact Nat.le_trans (ih hn) (Nat.le_max_right _ _)

/-- Modelled from the spec: backward reachability with boundary cuts, as an
explicit work-stack with a visited set keyed by node name (spec section 9).
A remote op is recorded as visited but never expanded; a dangling input
reference raises `MissingNodeError`. The fuel argument only bounds the
recursion; `visitFuel_isSome` shows the bound used by `visit` suffices. -/
def visitFuel (g : List Node) : Nat → List String → List String →
    Option (Except PartitionError (List String))
  | 0, _, _ => none
  | _ + 1, [], visited => some (.ok visited)
  | fuel + 1, f :: fs, visited =>
    if f ∈ visited then visitFuel g fuel fs visited
    else
      match lookupNode g f with
      | none => some (.error (.missingNodeError f))
      | some nd =>
        if nd.is_remote_op then visitFuel g fuel fs (f :: visited)
        else visitFuel g fuel (nd.inputs ++ fs) (f :: visited)

theorem visitFuel_nil (g : List Node) (fuel : Nat) (vis : List String) :
    visitFuel g (fuel + 1) [] vis = some (.ok vis) := rfl

theorem visitFuel_mem {g : List Node} {f : String} {vis : List String} (fuel : Nat)
    (fs : List String) (hmem : f ∈ vis) :
    visitFuel g (fuel + 1) (f :: fs) vis = visitFuel g fuel fs vis := by
  simp [visitFuel, hmem]

theorem visitFuel_missing {g : List Node} {f : String} {vis : List String} (fuel : Nat)
    (fs : List String) (hmem : f ∉ vis) (hnd : lookupNode g f = none) :
    visitFuel g (fuel + 1) (f :: fs) vis = some (.error (.missingNodeError f)) := by
  simp [visitFuel, hmem, hnd]

theorem visitFuel_remote {g : List Node} {f : String} {vis : List String} {nd : Node}
    (fuel : Nat) (fs : List String) (hmem : f ∉ vis) (hnd : lookupNode g f = some nd)
    (hro : nd.is_remote_op = true) :
    visitFuel g (fuel + 1) (f :: fs) vis = visitFuel g fuel fs (f :: vis) := by
  simp [visitFuel, hmem, hnd, hro]

theorem visitFuel_expand {g : List Node} {f : String} {vis : List String} {nd : Node}
    (fuel : Nat) (fs : List String) (hmem : f ∉ vis) (hnd : lookupNode g f = some nd)
    (hro : nd.is_remote_op = false) :
    visitFuel g (fuel + 1) (f :: fs) vis = visitFuel g fuel (nd.inputs ++ fs) (f :: vis) := by
  simp [visitFuel, hmem, hnd, hro]

/-- Fuel bound for the traversal: the frontier shrinks by one per step except
when an unvisited non-remote node adds at most `maxInputs g` inputs, which can
happen at most `unseenCount` times. -/
def phi (g : List Node) (frontier visited : List String) : Nat :=
  frontier.length + unseenCount g visited * (maxInputs g + 1)

theorem visitFuel_isSome :
    ∀ (fuel : Nat) (g : List Node) (frontier visited : List String),
      phi g frontier visited < fuel → (visitFuel g fuel frontier visited).isSome := by
  intro fuel
  induction fuel with
  | zero => intro g fr vis h; exact absurd h (by omega)
  | succ fuel ih =>
    intro g fr vis h
    match fr with
    | [] => simp [visitFuel]
    | f :: fs =>
      by_cases hmem : f ∈ vis
      · rw [visitFuel_mem fuel fs hmem]
        apply ih
        have hphi : phi g (f :: fs) vis = phi g fs vis + 1 := by
          simp only [phi, List.length_cons]; ring
        rw [hphi] at h
        exact Nat.lt_of_succ_lt_succ h
      · cases hnd : lookupNode g f with
        | none => rw [visitFuel_missing fuel fs hmem hnd]; simp
        | some nd =>
          have hfname : f ∈ g.map Node.name := by
            have h1 := List.mem_of_find?_eq_some hnd
            have h2 : nd.name = f := by
              have := List.find?_some hnd
              simpa using this
            exact h2 ▸ List.mem_map_of_mem Node.name h1
          have hu : unseenCount g (f :: vis) < unseenCount g vis := unseenCount_lt hfname hmem
          obtain ⟨c, hc⟩ : ∃ c, unseenCount g vis = unseenCount g (f :: vis) + c + 1 :=
            ⟨unseenCount g vis - unseenCount g (f :: vis) - 1, by omega⟩
          cases hro : nd.is_remote_op with
          | true =>
            rw [visitFuel_remote fuel fs hmem hnd hro]
            apply ih
            simp only [phi, List.length_cons] at h ⊢
            rw [hc, Nat.add_mul, Nat.add_mul, Nat.one_mul] at h
            obtain ⟨A, hA⟩ : ∃ A, unseenCount g (f :: vis) * (maxInputs g + 1) = A := ⟨_, rfl⟩
            rw [hA] at h ⊢
            obtain ⟨B, hB⟩ : ∃ B, c * (maxInputs g + 1) = B := ⟨_, rfl⟩
            rw [hB] at h
            omega
          | false =>
            rw [visitFuel_expand fuel fs hmem hnd hro]
            apply ih
            simp only [phi, List.length_cons, List.length_append] at h ⊢
            rw [hc, Nat.add_mul, Nat.add_mul, Nat.one_mul] at h
            have hin : nd.inputs.length ≤ maxInputs g :=
              inputs_le_maxInputs (List.mem_of_find?_eq_some hnd)
            obtain ⟨A, hA⟩ : ∃ A, unseenCount g (f :: vis) * (maxInputs g + 1) = A := ⟨_, rfl⟩
            rw [hA] at h ⊢
            obtain ⟨B, hB⟩ : ∃ B, c * (maxInputs g + 1) = B := ⟨_, rfl⟩
            rw [hB] at h
            omega

/-- Modelled from the spec: the backward traversal from a frontier, returning
the visited set (remote boundary nodes included, unexpanded). Total because
the fuel provably suffices. -/
def visit (g : List Node) (frontier visited : List String) :
    Except PartitionError (List String) :=
  (visitFuel g (phi g frontier visited + 1) frontier visited).get
    (visitFuel_isSome _ g frontier visited (Nat.lt_succ_self _))

theorem visit_eq_visitFuel (g : List Node) (frontier visited : List String) :
    visitFuel g (phi g frontier visited + 1) frontier visited =
      some (visit g frontier visited) :=
  (Option.some_get _).symm

/-- A group of declared outputs whose backward traversals overlap, together
with the union of their visited non-remote nodes and remote boundaries. -/
structure Group where
  outs : List String
  nodes : List String
  bounds : List String
deriving DecidableEq, Repr

/-- The non-remote part of a traversal result. -/
def travNonRemote (g : List Node) (fin : List String) : List String :=
  fin.filter (fun x => !isRemoteName g x)

/-- The remote-boundary part of a traversal result. -/
def travRemote (g : List Node) (fin : List String) : List String :=
  fin.filter (fun x => isRemoteName g x)

/-- The groups whose non-remote nodes overlap the new traversal. -/
def groupHits (g : List Node) (groups : List Group) (p : String × List String) :
    List Group :=
  groups.filter (fun gr => gr.nodes.any (fun x => x ∈ travNonRemote g p.2))

/-- The groups untouched by the new traversal. -/
def groupMisses (g : List Node) (groups : List Group) (p : String × List String) :
    List Group :=
  groups.filter (fun gr => !gr.nodes.any (fun x => x ∈ travNonRemote g p.2))

/-- The merge of all overlapping groups with the new traversal. -/
def mergedGroup (g : List Node) (groups : List Group) (p : String × List String) : Group :=
  ⟨((groupHits g groups p).map Group.outs).join ++ [p.1],
   ((groupHits g groups p).map Group.nodes).join ++ travNonRemote g p.2,
   ((groupHits g groups p).map Group.bounds).join ++ travRemote g p.2⟩

/-- Modelled from the spec: fold one traversal result `(output, visited)` into
the groups so far, merging every group whose non-remote nodes overlap the new
traversal (spec section 4.2, ordering/grouping policy). -/
def addOutputGroup (g : List Node) (groups : List Group) (p : String × List String) :
    List Group :=
  groupMisses g groups p ++ [mergedGroup g groups p]

theorem mem_addOutputGroup {g : List Node} {groups : List Group}
    {p : String × List String} {gr : Group} :
    gr ∈ addOutputGroup g groups p ↔
      gr ∈ groupMisses g groups p ∨ gr = mergedGroup g groups p := by
  simp [addOutputGroup]

/-- The subgraph owned by a group: the graph nodes whose names the group
visited. -/
def subgraphOf (g : List Node) (gr : Group) : List Node :=
  g.filter (fun n => n.name ∈ gr.nodes)

/-- A subgraph execution spec for one group. -/
def mkSubgraphSpec (g : List Node) (gr : Group) : ExecutionSpec :=
  ⟨some (subgraphOf g gr), sortNames gr.bounds.dedup, gr.outs, false⟩

/-- A remote-op execution spec: no subgraph, the single output name of the
remote op. -/
def mkRemoteSpec (r : String) : ExecutionSpec :=
  ⟨none, [], [r], true⟩

/-- One traversal per declared non-remote output, paired with its output. -/
def visitOut (g : List Node) (o : String) : Except PartitionError (String × List String) :=
  match visit g [o] [] with
  | .error e => .error e
  | .ok fin => .ok (o, fin)

/-- The groups built by folding the traversal results in declared-output
order. -/
def groupsOf (g : List Node) (finals : List (String × List String)) : List Group :=
  finals.foldl (addOutputGroup g) []

/-- The deduplicated names of all remote ops to be emitted as remote-op specs:
declared remote outputs first, then the boundary nodes of the groups. -/
def remoteNamesOf (g : List Node) (outputs : List String) (groups : List Group) :
    List String :=
  (outputs.filter (fun o => isRemoteName g o) ++ (groups.map Group.bounds).join).dedup

/-- Modelled from the spec: `partition_graph(graph, output_names)`. Checks the
declared outputs, runs one backward traversal per non-remote output, groups
overlapping traversals into subgraph specs, and emits one deduplicated
remote-op spec per remote output or boundary. -/
def partition_graph (g : List Node) (outputs : List String) :
    Except PartitionError (List ExecutionSpec) :=
  match outputs.find? (fun o => (lookupNode g o).isNone) with
  | some o => .error (.unresolvedOutputError o)
  | none =>
    match mapE (outputs.filter (fun o => !isRemoteName g o)) (visitOut g) with
    | .error e => .error e
    | .ok finals =>
      let groups := groupsOf g finals
      .ok (groups.map (mkSubgraphSpec g) ++ (remoteNamesOf g outputs groups).map mkRemoteSpec)

/-- Modelled from the spec: `partition_all_graphs`, one `partition_graph` run
per named graph of the collection. -/
def partition_all (graphs : List (String × List Node))
    (outputsOf : String → List String) :
    Except PartitionError (List (String × List ExecutionSpec)) :=
  mapE graphs (fun pr =>
    match partition_graph pr.2 (outputsOf pr.1) with
    | .error e => .error e
    | .ok specs => .ok (pr.1, specs))

/-- Names of the nodes owned by a spec's subgraph (empty for remote-op
specs). -/
def specNodeNames (spec : ExecutionSpec) : List String :=
  (spec.subgraph.getD []).map Node.name

/-- Backward reachability with boundary cuts, as a relation: the declared
outputs are reachable, and the inputs of a reachable non-remote node are
reachable. Remote ops are reached but never expanded. -/
inductive Reachable (g : List Node) (outputs : List String) : String → Prop where
  | base (o : String) : o ∈ outputs → Reachable g outputs o
  | step (m i : String) (nd : Node) : Reachable g outputs m → lookupNode g m = some nd →
      nd.is_remote_op = false → i ∈ nd.inputs → Reachable g outputs i

theorem visitFuel_subset :
    ∀ (fuel : Nat) (g : List Node) (frontier visited fin : List String),
      visitFuel g fuel frontier visited = some (.ok fin) →
      (∀ v ∈ visited, v ∈ fin) ∧ (∀ f ∈ frontier, f ∈ fin) := by
  intro fuel
  induction fuel with
  | zero => intro g fr vis fin h; simp [visitFuel] at h
  | succ fuel ih =>
    intro g fr vis fin h
    match fr with
    | [] =>
      rw [visitFuel_nil] at h
      simp only [Option.some.injEq, Except.ok.injEq] at h
      subst h
      exact ⟨fun v hv => hv, fun f hf => absurd hf (by simp)⟩
    | f :: fs =>
      by_cases hmem : f ∈ vis
      · rw [visitFuel_mem fuel fs hmem] at h
        rcases ih g fs vis fin h with ⟨h1, h2⟩
        refine ⟨h1, fun x hx => ?_⟩
        rcases List.mem_cons.mp hx with hx | hx
        · exact hx ▸ h1 f hmem
        · exact h2 x hx
      · cases hnd : lookupNode g f with
        | none => rw [visitFuel_missing fuel fs hmem hnd] at h; simp at h
        | some nd =>
          cases hro : nd.is_remote_op with
          | true =>
            rw [visitFuel_remote fuel fs hmem hnd hro] at h
            rcases ih g fs (f :: vis) fin h with ⟨h1, h2⟩
            refine ⟨fun v hv => h1 v (List.mem_cons_of_mem f hv), fun x hx => ?_⟩
            rcases List.mem_cons.mp hx with hx | hx
            · exact hx ▸ h1 f (by simp)
            · exact h2 x hx
          | false =>
            rw [visitFuel_expand fuel fs hmem hnd hro] at h
            rcases ih g (nd.inputs ++ fs) (f :: vis) fin h with ⟨h1, h2⟩
            refine ⟨fun v hv => h1 v (List.mem_cons_of_mem f hv), fun x hx => ?_⟩
            rcases List.mem_cons.mp hx with hx | hx
            · exact hx ▸ h1 f (by simp)
            · exact h2 x (List.mem_append_right _ hx)

theorem visitFuel_sound {g : List Node} (P : String → Prop)
    (hclosed : ∀ m nd, P m → lookupNode g m = some nd → nd.is_remote_op = false →
      ∀ i ∈ nd.inputs, P i) :
    ∀ (fuel : Nat) (frontier visited fin : List String),
      visitFuel g fuel frontier visited = some (.ok fin) →
      (∀ f ∈ frontier, P f) → (∀ v ∈ visited, P v) → ∀ x ∈ fin, P x := by
  intro fuel
  induction fuel with
  | zero => intro fr vis fin h; simp [visitFuel] at h
  | succ fuel ih =>
    intro fr vis fin h hfr hvis
    match fr with
    | [] =>
      rw [visitFuel_nil] at h
      simp only [Option.some.injEq, Except.ok.injEq] at h
      subst h
      exact hvis
    | f :: fs =>
      by_cases hmem : f ∈ vis
      · exact ih fs vis fin (by rw [visitFuel_mem fuel fs hmem] at h; exact h)
          (fun x hx => hfr x (List.mem_cons_of_mem f hx)) hvis
      · cases hnd : lookupNode g f with
        | none => rw [visitFuel_missing fuel fs hmem hnd] at h; simp at h
        | some nd =>
          have hPf : P f := hfr f (by simp)
          cases hro : nd.is_remote_op with
          | true =>
            rw [visitFuel_remote fuel fs hmem hnd hro] at h
            refine ih fs (f :: vis) fin h
              (fun x hx => hfr x (List.mem_cons_of_mem f hx)) (fun v hv => ?_)
            rcases List.mem_cons.mp hv with hv | hv
            · exact hv ▸ hPf
            · exact hvis v hv
          | false =>
            rw [visitFuel_expand fuel fs hmem hnd hro] at h
            refine ih (nd.inputs ++ fs) (f :: vis) fin h (fun x hx => ?_) (fun v hv => ?_)
            · rcases List.mem_append.mp hx with hx | hx
              · exact hclosed f nd hPf hnd hro x hx
              · exact hfr x (List.mem_cons_of_mem f hx)
            · rcases List.mem_cons.mp hv with hv | hv
              · exact hv ▸ hPf
              · exact hvis v hv

theorem visitFuel_closed :
    ∀ (fuel : Nat) (g : List Node) (frontier visited fin : List String),
      visitFuel g fuel frontier visited = some (.ok fin) →
      (∀ v ∈ visited, ∃ nd, lookupNode g v = some nd ∧
        (nd.is_remote_op = false → ∀ i ∈ nd.inputs, i ∈ fin)) →
      ∀ x ∈ fin, ∃ nd, lookupNode g x = some nd ∧
        (nd.is_remote_op = false → ∀ i ∈ nd.inputs, i ∈ fin) := by
  intro fuel
  induction fuel with
  | zero => intro g fr vis fin h; simp [visitFuel] at h
  | succ fuel ih =>
    intro g fr vis fin h hvis
    match fr with
    | [] =>
      rw [visitFuel_nil] at h
      simp only [Option.some.injEq, Except.ok.injEq] at h
      subst h
      exact hvis
    | f :: fs =>
      by_cases hmem : f ∈ vis
      · exact ih g fs vis fin (by rw [visitFuel_mem fuel fs hmem] at h; exact h) hvis
      · cases hnd : lookupNode g f with
        | none => rw [visitFuel_missing fuel fs hmem hnd] at h; simp at h
        | some nd =>
          cases hro : nd.is_remote_op with
          | true =>
            rw [visitFuel_remote fuel fs hmem hnd hro] at h
            refine ih g fs (f :: vis) fin h (fun v hv => ?_)
            rcases List.mem_cons.mp hv with hv | hv
            · exact hv ▸ ⟨nd, hnd, fun hf => absurd (hf ▸ hro) (by simp)⟩
            · exact hvis v hv
          | false =>
            rw [visitFuel_expand fuel fs hmem hnd hro] at h
            refine ih g (nd.inputs ++ fs) (f :: vis) fin h (fun v hv => ?_)
            rcases List.mem_cons.mp hv with hv | hv
            · refine hv ▸ ⟨nd, hnd, fun _ i hi => ?_⟩
              exact (visitFuel_subset fuel g _ _ fin h).2 i (List.mem_append_left fs hi)
            · exact hvis v hv

theorem visitFuel_error_shape :
    ∀ (fuel : Nat) (g : List Node) (frontier visited : List String) (e : PartitionError),
      visitFuel g fuel frontier visited = some (.error e) →
      ∃ m, e = .missingNodeError m ∧ lookupNode g m = none := by
  intro fuel
  induction fuel with
  | zero => intro g fr vis e h; simp [visitFuel] at h
  | succ fuel ih =>
    intro g fr vis e h
    match fr with
    | [] => rw [visitFuel_nil] at h; simp at h
    | f :: fs =>
      by_cases hmem : f ∈ vis
      · exact ih g fs vis e (by rw [visitFuel_mem fuel fs hmem] at h; exact h)
      · cases hnd : lookupNode g f with
        | none =>
          rw [visitFuel_missing fuel fs hmem hnd] at h
          simp only [Option.some.injEq, Except.error.injEq] at h
          exact ⟨f, h.symm, hnd⟩
        | some nd =>
          cases hro : nd.is_remote_op with
          | true => exact ih g fs (f :: vis) e (by rw [visitFuel_remote fuel fs hmem hnd hro] at h; exact h)
          | false => exact ih g (nd.inputs ++ fs) (f :: vis) e (by rw [visitFuel_expand fuel fs hmem hnd hro] at h; exact h)

theorem visit_fuel_of_ok {g : List Node} {frontier visited fin : List String}
    (h : visit g frontier visited = .ok fin) :
    visitFuel g (phi g frontier visited + 1) frontier visited = some (.ok fin) := by
  rw [visit_eq_visitFuel, h]

theorem visit_subset {g : List Node} {frontier visited fin : List String}
    (h : visit g frontier visited = .ok fin) :
    (∀ v ∈ visited, v ∈ fin) ∧ (∀ f ∈ frontier, f ∈ fin) :=
  visitFuel_subset _ g frontier visited fin (visit_fuel_of_ok h)

theorem visit_closed {g : List Node} {o : String} {fin : List String}
    (h : visit g [o] [] = .ok fin) :
    ∀ x ∈ fin, ∃ nd, lookupNode g x = some nd ∧
      (nd.is_remote_op = false → ∀ i ∈ nd.inputs, i ∈ fin) :=
  visitFuel_closed _ g [o] [] fin (visit_fuel_of_ok h) (by simp)

theorem visit_sound {g : List Node} {o : String} {fin : List String}
    (h : visit g [o] [] = .ok fin) : ∀ x ∈ fin, Reachable g [o] x :=
  visitFuel_sound (Reachable g [o])
    (fun m nd hm hnd hro i hi => Reachable.step m i nd hm hnd hro hi)
    _ [o] [] fin (visit_fuel_of_ok h)
    (fun f hf => Reachable.base f hf) (by simp)

theorem visit_complete {g : List Node} {o : String} {fin : List String}
    (h : visit g [o] [] = .ok fin) : ∀ x, Reachable g [o] x → x ∈ fin := by
  intro x hx
  induction hx with
  | base o' ho' => exact (visit_subset h).2 o' ho'
  | step m i nd hm hnd hro hi ihm =>
    rcases visit_closed h m ihm with ⟨nd', hnd', hclose⟩
    rw [hnd] at hnd'
    cases hnd'
    exact hclose hro i hi

theorem visit_members_present {g : List Node} {o : String} {fin : List String}
    (h : visit g [o] [] = .ok fin) : ∀ x ∈ fin, (lookupNode g x).isSome := by
  intro x hx
  rcases visit_closed h x hx with ⟨nd, hnd, _⟩
  rw [hnd]
  rfl

theorem reachable_mono {g : List Node} {o : String} {outputs : List String}
    (ho : o ∈ outputs) : ∀ {x}, Reachable g [o] x → Reachable g outputs x := by
  intro x h
  induction h with
  | base o' ho' =>
    have : o' = o := by simpa using ho'
    exact this ▸ Reachable.base o ho
  | step m i nd _ hnd hro hi ihm => exact Reachable.step m i nd ihm hnd hro hi

theorem reachable_iff_output {g : List Node} {outputs : List String} {x : String} :
    Reachable g outputs x ↔ ∃ o ∈ outputs, Reachable g [o] x := by
  constructor
  · intro h
    induction h with
    | base o ho => exact ⟨o, ho, Reachable.base o (by simp)⟩
    | step m i nd _ hnd hro hi ihm =>
      rcases ihm with ⟨o, ho, hom⟩
      exact ⟨o, ho, Reachable.step m i nd hom hnd hro hi⟩
  · rintro ⟨o, ho, h⟩
    exact reachable_mono ho h

theorem reachable_singleton_remote {g : List Node} {o x : String}
    (hro : isRemoteName g o = true) (h : Reachable g [o] x) : x = o := by
  induction h with
  | base o' ho' => simpa using ho'
  | step m i nd _ hnd hro' _ ihm =>
    subst ihm
    have hfalse : isRemoteName g m = false := by simp [isRemoteName, hnd, hro']
    rw [hfalse] at hro
    exact absurd hro (by simp)

theorem map_nodup_inj {α β : Type} {f : α → β} :
    ∀ {l : List α}, (l.map f).Nodup →
      ∀ {a b : α}, a ∈ l → b ∈ l → f a = f b → a = b := by
  intro l
  induction l with
  | nil => intro _ a b ha; simp at ha
  | cons c l ih =>
    intro hnd a b ha hb hab
    rw [List.map_cons, List.nodup_cons] at hnd
    rcases List.mem_cons.mp ha with ha | ha <;> rcases List.mem_cons.mp hb with hb | hb
    · rw [ha, hb]
    · exfalso; apply hnd.1; rw [ha] at hab; rw [hab]
      exact List.mem_map_of_mem f hb
    · exfalso; apply hnd.1; rw [hb] at hab; rw [← hab]
      exact List.mem_map_of_mem f ha
    · exact ih hnd.2 ha hb hab

theorem lookup_mem {g : List Node} {x : String} {nd : Node}
    (h : lookupNode g x = some nd) : nd ∈ g ∧ nd.name = x :=
  ⟨List.mem_of_find?_eq_some h, by have := List.find?_some h; simpa using this⟩

theorem lookup_of_mem_nodup {g : List Node} {n : Node}
    (hnd : (g.map Node.name).Nodup) (hn : n ∈ g) : lookupNode g n.name = some n := by
  cases hl : lookupNode g n.name with
  | none =>
    exfalso
    rw [lookupNode, List.find?_eq_none] at hl
    exact hl n hn (by simp)
  | some m =>
    rcases lookup_mem hl with ⟨hm, hname⟩
    rw [map_nodup_inj hnd hm hn hname]

theorem lookup_isSome_iff {g : List Node} {x : String} :
    (lookupNode g x).isSome = true ↔ ∃ n ∈ g, n.name = x := by
  cases hl : lookupNode g x with
  | none =>
    rw [lookupNode, List.find?_eq_none] at hl
    simp only [Option.isSome_none, Bool.false_eq_true, false_iff]
    rintro ⟨n, hn, hname⟩
    exact hl n hn (by simp [hname])
  | some nd =>
    rcases lookup_mem hl with ⟨hm, hname⟩
    simp only [Option.isSome_some, true_iff]
    exact ⟨nd, hm, hname⟩

theorem mem_filter_or {α : Type} (l : List α) (c : α → Bool) (a : α) (ha : a ∈ l) :
    a ∈ l.filter c ∨ a ∈ l.filter (fun x => !c x) := by
  cases h : c a with
  | true => exact Or.inl (List.mem_filter.mpr ⟨ha, h⟩)
  | false => exact Or.inr (List.mem_filter.mpr ⟨ha, by simp [h]⟩)

/-- The invariant carried by every group produced by the grouping fold: each of
its outputs contributed its whole traversal, and every node or boundary of the
group comes from the traversal of one of its outputs. -/
def GroupInv (g : List Node) (finals : List (String × List String)) (gr : Group) : Prop :=
  (∀ o ∈ gr.outs, ∃ fin, (o, fin) ∈ finals ∧
    (∀ x ∈ fin, isRemoteName g x = false → x ∈ gr.nodes) ∧
    (∀ x ∈ fin, isRemoteName g x = true → x ∈ gr.bounds)) ∧
  (∀ x ∈ gr.nodes, ∃ o fin, o ∈ gr.outs ∧ (o, fin) ∈ finals ∧ x ∈ fin ∧
    isRemoteName g x = false) ∧
  (∀ x ∈ gr.bounds, ∃ o fin, (o, fin) ∈ finals ∧ x ∈ fin ∧ isRemoteName g x = true)

theorem mem_travNonRemote {g : List Node} {fin : List String} {x : String} :
    x ∈ travNonRemote g fin ↔ x ∈ fin ∧ isRemoteName g x = false := by
  simp [travNonRemote]

theorem mem_travRemote {g : List Node} {fin : List String} {x : String} :
    x ∈ travRemote g fin ↔ x ∈ fin ∧ isRemoteName g x = true := by
  simp [travRemote]

theorem addOutputGroup_inv {g : List Node} {finals : List (String × List String)}
    {acc : List Group} {p : String × List String} (hp : p ∈ finals)
    (hacc : ∀ gr ∈ acc, GroupInv g finals gr) :
    ∀ gr ∈ addOutputGroup g acc p, GroupInv g finals gr := by
  intro gr hgr
  rcases mem_addOutputGroup.mp hgr with hgr | hgr
  · exact hacc gr (List.mem_of_mem_filter hgr)
  · subst hgr
    refine ⟨?_, ?_, ?_⟩
    · intro o ho
      rcases List.mem_append.mp ho with ho | ho
      · rcases List.mem_join.mp ho with ⟨outs, houts, ho⟩
        rcases List.mem_map.mp houts with ⟨hgrp, hhit, houts'⟩
        have hinv := hacc hgrp (List.mem_of_mem_filter hhit)
        rcases hinv.1 o (houts' ▸ ho) with ⟨fin, hfin, hN, hB⟩
        refine ⟨fin, hfin, fun x hx hxr => ?_, fun x hx hxr => ?_⟩
        · exact List.mem_append_left _ (List.mem_join.mpr
            ⟨hgrp.nodes, List.mem_map_of_mem Group.nodes hhit, hN x hx hxr⟩)
        · exact List.mem_append_left _ (List.mem_join.mpr
            ⟨hgrp.bounds, List.mem_map_of_mem Group.bounds hhit, hB x hx hxr⟩)
      · have ho' : o = p.1 := by simpa using ho
        subst ho'
        refine ⟨p.2, by simpa using hp, fun x hx hxr => ?_, fun x hx hxr => ?_⟩
        · exact List.mem_append_right _ (mem_travNonRemote.mpr ⟨hx, hxr⟩)
        · exact List.mem_append_right _ (mem_travRemote.mpr ⟨hx, hxr⟩)
    · intro x hx
      rcases List.mem_append.mp hx with hx | hx
      · rcases List.mem_join.mp hx with ⟨nodes, hnodes, hx⟩
        rcases List.mem_map.mp hnodes with ⟨hgrp, hhit, hnodes'⟩
        have hinv := hacc hgrp (List.mem_of_mem_filter hhit)
        rcases hinv.2.1 x (hnodes' ▸ hx) with ⟨o, fin, ho, hfin, hxf, hxr⟩
        exact ⟨o, fin, List.mem_append_left _ (List.mem_join.mpr
          ⟨hgrp.outs, List.mem_map_of_mem Group.outs hhit, ho⟩), hfin, hxf, hxr⟩
      · rcases mem_travNonRemote.mp hx with ⟨hxp, hxr⟩
        exact ⟨p.1, p.2, List.mem_append_right _ (by simp), by simpa using hp, hxp, hxr⟩
    · intro x hx
      rcases List.mem_append.mp hx with hx | hx
      · rcases List.mem_join.mp hx with ⟨bounds, hbounds, hx⟩
        rcases List.mem_map.mp hbounds with ⟨hgrp, hhit, hbounds'⟩
        have hinv := hacc hgrp (List.mem_of_mem_filter hhit)
        rcases hinv.2.2 x (hbounds' ▸ hx) with ⟨o, fin, hfin, hxf, hxr⟩
        exact ⟨o, fin, hfin, hxf, hxr⟩
      · rcases mem_travRemote.mp hx with ⟨hxp, hxr⟩
        exact ⟨p.1, p.2, by simpa using hp, hxp, hxr⟩

theorem foldl_groupInv {g : List Node} {finals : List (String × List String)} :
    ∀ (l : List (String × List String)) (acc : List Group), (∀ p ∈ l, p ∈ finals) →
      (∀ gr ∈ acc, GroupInv g finals gr) →
      ∀ gr ∈ l.foldl (addOutputGroup g) acc, GroupInv g finals gr := by
  intro l
  induction l with
  | nil => intro acc _ hacc; exact hacc
  | cons p l ih =>
    intro acc hl hacc
    exact ih (addOutputGroup g acc p) (fun q hq => hl q (List.mem_cons_of_mem p hq))
      (addOutputGroup_inv (hl p (by simp)) hacc)

theorem groupsOf_inv {g : List Node} {finals : List (String × List String)} :
    ∀ gr ∈ groupsOf g finals, GroupInv g finals gr :=
  foldl_groupInv finals [] (fun _ hp => hp) (by simp)

/-- Disjointness of the non-remote node sets of two groups. -/
def NodesDisjoint (gr1 gr2 : Group) : Prop :=
  ∀ x, x ∈ gr1.nodes → x ∉ gr2.nodes

theorem nodesDisjoint_symm : ∀ {a b : Group}, NodesDisjoint a b → NodesDisjoint b a :=
  fun hab x hxb hxa => hab x hxa hxb

theorem mem_groupMisses {g : List Node} {groups : List Group} {p : String × List String}
    {gr : Group} : gr ∈ groupMisses g groups p ↔
      gr ∈ groups ∧ (gr.nodes.any (fun x => x ∈ travNonRemote g p.2)) = false := by
  simp [groupMisses]

theorem mem_groupHits {g : List Node} {groups : List Group} {p : String × List String}
    {gr : Group} : gr ∈ groupHits g groups p ↔
      gr ∈ groups ∧ (gr.nodes.any (fun x => x ∈ travNonRemote g p.2)) = true := by
  simp [groupHits]

theorem addOutputGroup_disjoint {g : List Node} {acc : List Group}
    {p : String × List String} (hacc : List.Pairwise NodesDisjoint acc) :
    List.Pairwise NodesDisjoint (addOutputGroup g acc p) := by
  rw [addOutputGroup, List.pairwise_append]
  refine ⟨hacc.sublist (List.filter_sublist acc), by simp, ?_⟩
  intro gr hgr merged hmerged
  have hm : merged = mergedGroup g acc p := by simpa using hmerged
  subst hm
  intro x hxgr hxm
  rcases mem_groupMisses.mp hgr with ⟨hgacc, hmiss⟩
  rcases List.mem_append.mp hxm with hxm | hxm
  · rcases List.mem_join.mp hxm with ⟨nodes, hnodes, hx⟩
    rcases List.mem_map.mp hnodes with ⟨hgrp, hhit, hnodes'⟩
    rcases mem_groupHits.mp hhit with ⟨hhacc, hhitc⟩
    have hne : gr ≠ hgrp := by
      intro he
      rw [← he] at hhitc
      rw [hmiss] at hhitc
      exact absurd hhitc (by simp)
    have hdisj : NodesDisjoint gr hgrp :=
      List.Pairwise.forall (fun a b => nodesDisjoint_symm) hacc hgacc hhacc hne
    exact hdisj x hxgr (hnodes' ▸ hx)
  · have hany : gr.nodes.any (fun y => y ∈ travNonRemote g p.2) = true :=
      List.any_eq_true.mpr ⟨x, hxgr, by simpa using hxm⟩
    rw [hmiss] at hany
    exact absurd hany (by simp)

theorem foldl_disjoint {g : List Node} :
    ∀ (l : List (String × List String)) (acc : List Group),
      List.Pairwise NodesDisjoint acc →
      List.Pairwise NodesDisjoint (l.foldl (addOutputGroup g) acc) := by
  intro l
  induction l with
  | nil => intro acc hacc; exact hacc
  | cons p l ih => intro acc hacc; exact ih _ (addOutputGroup_disjoint hacc)

theorem groupsOf_disjoint {g : List Node} (finals : List (String × List String)) :
    List.Pairwise NodesDisjoint (groupsOf g finals) :=
  foldl_disjoint finals [] (by simp)

theorem addOutputGroup_outs_mono {g : List Node} {acc : List Group}
    {p : String × List String} :
    ∀ gr ∈ acc, ∃ gr' ∈ addOutputGroup g acc p, ∀ o ∈ gr.outs, o ∈ gr'.outs := by
  intro gr hgr
  cases hc : gr.nodes.any (fun x => x ∈ travNonRemote g p.2) with
  | false =>
    refine ⟨gr, mem_addOutputGroup.mpr (Or.inl (mem_groupMisses.mpr ⟨hgr, hc⟩)),
      fun o ho => ho⟩
  | true =>
    refine ⟨mergedGroup g acc p, mem_addOutputGroup.mpr (Or.inr rfl), fun o ho => ?_⟩
    exact List.mem_append_left _ (List.mem_join.mpr
      ⟨gr.outs, List.mem_map_of_mem Group.outs (mem_groupHits.mpr ⟨hgr, hc⟩), ho⟩)

theorem foldl_outs_mono {g : List Node} :
    ∀ (l : List (String × List String)) (acc : List Group) (gr : Group), gr ∈ acc →
      ∃ gr' ∈ l.foldl (addOutputGroup g) acc, ∀ o ∈ gr.outs, o ∈ gr'.outs := by
  intro l
  induction l with
  | nil => intro acc gr hgr; exact ⟨gr, hgr, fun o ho => ho⟩
  | cons p l ih =>
    intro acc gr hgr
    rcases addOutputGroup_outs_mono gr hgr with ⟨gr', hgr', hsub⟩
    rcases ih (addOutputGroup g acc p) gr' hgr' with ⟨gr'', hgr'', hsub'⟩
    exact ⟨gr'', hgr'', fun o ho => hsub' o (hsub o ho)⟩

theorem foldl_outs_covered {g : List Node} :
    ∀ (l : List (String × List String)) (acc : List Group),
      ∀ p ∈ l, ∃ gr ∈ l.foldl (addOutputGroup g) acc, p.1 ∈ gr.outs := by
  intro l
  induction l with
  | nil => intro acc p hp; simp at hp
  | cons q l ih =>
    intro acc p hp
    rcases List.mem_cons.mp hp with hp | hp
    · subst hp
      have hmerged : ∃ gr ∈ addOutputGroup g acc p, p.1 ∈ gr.outs :=
        ⟨mergedGroup g acc p, mem_addOutputGroup.mpr (Or.inr rfl),
          List.mem_append_right _ (by simp)⟩
      rcases hmerged with ⟨gr, hgr, hpo⟩
      rcases foldl_outs_mono l (addOutputGroup g acc p) gr hgr with ⟨gr', hgr', hsub⟩
      exact ⟨gr', hgr', hsub p.1 hpo⟩
    · exact ih (addOutputGroup g acc q) p hp

theorem groupsOf_outs_covered {g : List Node} {finals : List (String × List String)} :
    ∀ p ∈ finals, ∃ gr ∈ groupsOf g finals, p.1 ∈ gr.outs :=
  foldl_outs_covered finals []

theorem partition_graph_ok {g : List Node} {outputs : List String}
    {specs : List ExecutionSpec} (h : partition_graph g outputs = .ok specs) :
    ∃ finals, outputs.find? (fun o => (lookupNode g o).isNone) = none ∧
      mapE (outputs.filter (fun o => !isRemoteName g o)) (visitOut g) = .ok finals ∧
      specs = (groupsOf g finals).map (mkSubgraphSpec g) ++
        (remoteNamesOf g outputs (groupsOf g finals)).map mkRemoteSpec := by
  cases hfind : outputs.find? (fun o => (lookupNode g o).isNone) with
  | some o =>
    simp only [partition_graph, hfind] at h
    exact Except.noConfusion h
  | none =>
    cases hmap : mapE (outputs.filter (fun o => !isRemoteName g o)) (visitOut g) with
    | error e =>
      simp only [partition_graph, hfind, hmap] at h
      exact Except.noConfusion h
    | ok finals =>
      simp only [partition_graph, hfind, hmap, Except.ok.injEq] at h
      exact ⟨finals, rfl, rfl, h.symm⟩

theorem visitOut_ok {g : List Node} {o : String} {pr : String × List String}
    (h : visitOut g o = .ok pr) : pr.1 = o ∧ visit g [o] [] = .ok pr.2 := by
  cases hv : visit g [o] [] with
  | error e =>
    have h' : visitOut g o = .error e := by simp [visitOut, hv]
    rw [h'] at h
    exact Except.noConfusion h
  | ok fin =>
    have h' : visitOut g o = .ok (o, fin) := by simp [visitOut, hv]
    rw [h'] at h
    have hpr : (o, fin) = pr := by injection h
    subst hpr
    exact ⟨rfl, rfl⟩

theorem visitOut_error {g : List Node} {o : String} {e : PartitionError}
    (h : visitOut g o = .error e) : visit g [o] [] = .error e := by
  cases hv : visit g [o] [] with
  | error e' =>
    have h' : visitOut g o = .error e' := by simp [visitOut, hv]
    rw [h'] at h
    have he : e' = e := by injection h
    rw [he]
  | ok fin =>
    have h' : visitOut g o = .ok (o, fin) := by simp [visitOut, hv]
    rw [h'] at h
    exact Except.noConfusion h

theorem finals_mem {g : List Node} {outputs : List String}
    {finals : List (String × List String)}
    (hmap : mapE (outputs.filter (fun o => !isRemoteName g o)) (visitOut g) = .ok finals) :
    ∀ pr ∈ finals, pr.1 ∈ outputs ∧ isRemoteName g pr.1 = false ∧
      visit g [pr.1] [] = .ok pr.2 := by
  intro pr hpr
  rcases mapE_ok_mem hmap pr hpr with ⟨o, ho, hvo⟩
  rcases visitOut_ok hvo with ⟨h1, h2⟩
  rcases List.mem_filter.mp ho with ⟨ho1, ho2⟩
  subst h1
  exact ⟨ho1, by simpa using ho2, h2⟩

theorem finals_of_output {g : List Node} {outputs : List String}
    {finals : List (String × List String)}
    (hmap : mapE (outputs.filter (fun o => !isRemoteName g o)) (visitOut g) = .ok finals) :
    ∀ o ∈ outputs, isRemoteName g o = false →
      ∃ fin, (o, fin) ∈ finals ∧ visit g [o] [] = .ok fin := by
  intro o ho hro
  have hof : o ∈ outputs.filter (fun q => !isRemoteName g q) :=
    List.mem_filter.mpr ⟨ho, by simp [hro]⟩
  rcases mapE_mem_ok hmap o hof with ⟨pr, hpr, hvo⟩
  rcases visitOut_ok hvo with ⟨h1, h2⟩
  refine ⟨pr.2, ?_, ?_⟩
  · rw [← h1]
    exact hpr
  · exact h2

theorem outputs_present {g : List Node} {outputs : List String}
    (hfind : outputs.find? (fun o => (lookupNode g o).isNone) = none) :
    ∀ o ∈ outputs, (lookupNode g o).isSome := by
  intro o ho
  have h := List.find?_eq_none.mp hfind o ho
  cases hl : lookupNode g o with
  | none => exact absurd (by simp [hl]) h
  | some nd => simp

theorem mem_remoteNamesOf {g : List Node} {outputs : List String} {groups : List Group}
    {x : String} : x ∈ remoteNamesOf g outputs groups ↔
      (x ∈ outputs ∧ isRemoteName g x = true) ∨ ∃ gr ∈ groups, x ∈ gr.bounds := by
  rw [remoteNamesOf, List.mem_dedup, List.mem_append]
  constructor
  · intro h
    rcases h with h | h
    · exact Or.inl (List.mem_filter.mp h)
    · rcases List.mem_join.mp h with ⟨bounds, hbounds, hx⟩
      rcases List.mem_map.mp hbounds with ⟨gr, hgr, hb⟩
      exact Or.inr ⟨gr, hgr, hb ▸ hx⟩
  · intro h
    rcases h with ⟨h1, h2⟩ | ⟨gr, hgr, hx⟩
    · exact Or.inl (List.mem_filter.mpr ⟨h1, h2⟩)
    · exact Or.inr (List.mem_join.mpr ⟨gr.bounds, List.mem_map_of_mem Group.bounds hgr, hx⟩)

theorem partition_ok_remote_shape {g : List Node} {outputs : List String}
    {specs : List ExecutionSpec} (h : partition_graph g outputs = .ok specs) :
    ∀ spec ∈ specs, spec.is_remote_op = true →
      spec.subgraph = none ∧ spec.output_names.length = 1 := by
  rcases partition_graph_ok h with ⟨finals, _, _, hspec⟩
  subst hspec
  intro spec hs hro
  rcases List.mem_append.mp hs with hs | hs
  · rcases List.mem_map.mp hs with ⟨gr, _, hgr⟩
    rw [← hgr] at hro
    exact absurd hro (by simp [mkSubgraphSpec])
  · rcases List.mem_map.mp hs with ⟨r, _, hr⟩
    rw [← hr]
    exact ⟨rfl, rfl⟩

/-! ## Example fixtures used by the witnesses -/

/-- A small example graph: a placeholder `x`, a remote op `r1` consuming `x`,
an `Add` node `y` consuming `x` and `r1`, and an input-free remote op `r2`. -/
def exampleGraph : List Node :=
  [⟨"x", "Placeholder", [], false⟩, ⟨"r1", "RemoteOp", ["x"], true⟩,
   ⟨"y", "Add", ["x", "r1"], false⟩, ⟨"r2", "RemoteOp", [], true⟩]

/-- Declared outputs for `exampleGraph`: the `Add` node and the remote op
`r2`. -/
def exampleOutputs : List String := ["y", "r2"]

/-- The execution specs produced for `exampleGraph` and `exampleOutputs`. -/
def exampleSpecs : List ExecutionSpec :=
  [⟨some [⟨"x", "Placeholder", [], false⟩, ⟨"y", "Add", ["x", "r1"], false⟩],
    ["r1"], ["y"], false⟩,
   ⟨none, [], ["r2"], true⟩, ⟨none, [], ["r1"], true⟩]

/-- A one-graph collection for the orchestrator examples. -/
def exampleCollection : List (String × List Node) := [("main", exampleGraph)]

/-- Output mapping for `exampleCollection`. -/
def exampleOutputsOf : String → List String :=
  fun nm => if nm = "main" then exampleOutputs else []

/-- The relation map of the layering test
(`RemoteOpLayerTest.test_layers`). -/
def exampleRelations : List (String × List String) :=
  [("a1", []), ("a2", []), ("b1", ["a1"]), ("b2", ["a1", "a2"]),
   ("c1", ["b1"]), ("c2", ["b1", "a1", "b2", "a2"])]

/-- The layers expected by the layering test. -/
def exampleLayers : List (List String) :=
  [["a1", "a2"], ["b1", "b2"], ["c1", "c2"]]

/-! ## Claim theorems -/

/-- Claim C3: for every graph collection and output mapping, every execution spec
produced with `is_remote_op = true` has no subgraph and carries exactly one
declared output name. -/
theorem claim3_remote_spec_shape (graphs : List (String × List Node))
    (outputsOf : String → List String) (result : List (String × List ExecutionSpec))
    (hok : partition_all graphs outputsOf = .ok result) :
    ∀ pr ∈ result, ∀ spec ∈ pr.2, spec.is_remote_op = true →
      spec.subgraph = none ∧ spec.output_names.length = 1 := by
  intro pr hpr
  rcases mapE_ok_mem hok pr hpr with ⟨gpair, _, hparse⟩
  cases hp : partition_graph gpair.2 (outputsOf gpair.1) with
  | error e =>
    simp only [hp] at hparse
    exact Except.noConfusion hparse
  | ok specs =>
    simp only [hp, Except.ok.injEq] at hparse
    rw [← hparse]
    exact partition_ok_remote_shape hp

/-- Witness for C3 at the example collection. -/
theorem claim3_remote_spec_shape_witness :
    partition_all exampleCollection exampleOutputsOf = .ok [("main", exampleSpecs)] ∧
      (⟨none, [], ["r2"], true⟩ : ExecutionSpec).subgraph = none ∧
      (⟨none, [], ["r2"], true⟩ : ExecutionSpec).output_names.length = 1 :=
  ⟨by rfl,
    claim3_remote_spec_shape exampleCollection exampleOutputsOf [("main", exampleSpecs)]
      (by rfl) ("main", exampleSpecs) (by simp) ⟨none, [], ["r2"], true⟩
      (by simp [exampleSpecs]) rfl⟩

instance instDecEqExcept {ε α : Type} [DecidableEq ε] [DecidableEq α] :
    DecidableEq (Except ε α) := fun a b =>
  match a, b with
  | .ok x, .ok y =>
    if h : x = y then isTrue (by rw [h])
    else isFalse (fun hh => h (by injection hh))
  | .error x, .error y =>
    if h : x = y then isTrue (by rw [h])
    else isFalse (fun hh => h (by injection hh))
  | .ok _, .error _ => isFalse (fun hh => Except.noConfusion hh)
  | .error _, .ok _ => isFalse (fun hh => Except.noConfusion hh)

/-- Claim C2: for every acyclic relation map (one the engine lays out without a
cycle error), every name appears in exactly one layer, dependencies appear in
strictly earlier layers, layer 0 is exactly the set of names with an empty
dependency list, and each layer is sorted lexicographically. -/
theorem claim2_layering_correct (rel : List (String × List String))
    (layers : List (List String)) (hnd : (rel.map Prod.fst).Nodup)
    (hok : RemoteOpLayers rel = .ok layers) :
    layers.join.Perm (rel.map Prod.fst) ∧ layers.join.Nodup ∧
    (∀ (i : Nat) (hi : i < layers.length) (p : String × List String), p ∈ rel →
      p.1 ∈ layers.get ⟨i, hi⟩ → ∀ d ∈ p.2,
        ∃ (j : Nat) (hj : j < layers.length), j < i ∧ d ∈ layers.get ⟨j, hj⟩) ∧
    (∀ nm, nm ∈ layers.headD [] ↔ ∃ p ∈ rel, p.1 = nm ∧ p.2 = []) ∧
    (∀ l ∈ layers, l.Sorted (fun a b => strLe a b = true)) := by
  have hperm := layersAux_join_perm rel.length rel [] layers hok
  refine ⟨hperm, hperm.nodup_iff.mpr hnd, ?_, RemoteOpLayers_layer_zero hok,
    layersAux_sorted rel.length rel [] layers hok⟩
  intro i hi p hp hpl d hd
  rcases layersAux_deps_earlier rel.length rel [] layers hok hnd i hi p hp hpl d hd with
    h | h
  · exact absurd h (by simp)
  · exact h

/-- Witness for C2: the layering test example, with its expected layers. -/
theorem claim2_layering_correct_witness :
    RemoteOpLayers exampleRelations = .ok exampleLayers ∧
      exampleLayers.join.Perm (exampleRelations.map Prod.fst) :=
  ⟨by rfl,
    (claim2_layering_correct exampleRelations exampleLayers (by decide) (by rfl)).1⟩

/-- Claim C5: for every relation map with a cyclic subset of names (each name of the
subset lists a dependency inside the subset), the layering engine returns
`CycleError`. -/
theorem claim5_cycle_detection (rel : List (String × List String)) (S : List String)
    (hnd : (rel.map Prod.fst).Nodup) (hS : S ≠ [])
    (hSrel : ∀ s ∈ S, s ∈ rel.map Prod.fst)
    (hScyc : ∀ p ∈ rel, p.1 ∈ S → ∃ d ∈ p.2, d ∈ S) :
    RemoteOpLayers rel = .error .cycleError :=
  RemoteOpLayers_cycle hS hSrel hScyc hnd

/-- Witness for C5: the cycle example of the spec. -/
theorem claim5_cycle_detection_witness :
    RemoteOpLayers [("x", ["y"]), ("y", ["x"])] = .error .cycleError :=
  claim5_cycle_detection [("x", ["y"]), ("y", ["x"])] ["x", "y"]
    (by decide) (by decide) (by decide) (by decide)

/-- Claim C6: layering and partitioning are deterministic — identical inputs give
identical results, and the layering output does not depend on the incidental
order of the relation map entries. -/
theorem claim6_determinism :
    (∀ (g : List Node) (outputs : List String),
      partition_graph g outputs = partition_graph g outputs) ∧
    (∀ rel : List (String × List String), RemoteOpLayers rel = RemoteOpLayers rel) ∧
    (∀ rel rel' : List (String × List String), rel.Perm rel' →
      RemoteOpLayers rel = RemoteOpLayers rel') :=
  ⟨fun _ _ => rfl, fun _ => rfl, fun _ _ h => RemoteOpLayers_perm_eq h⟩

/-- Witness for C6: the example graph twice, and a permuted relation map. -/
theorem claim6_determinism_witness :
    partition_graph exampleGraph exampleOutputs =
      partition_graph exampleGraph exampleOutputs ∧
    RemoteOpLayers [("b1", ["a1"]), ("a1", [])] =
      RemoteOpLayers [("a1", []), ("b1", ["a1"])] :=
  ⟨claim6_determinism.1 exampleGraph exampleOutputs,
    claim6_determinism.2.2 [("b1", ["a1"]), ("a1", [])] [("a1", []), ("b1", ["a1"])]
      (by decide)⟩

/-- Claim C9 counterexample: with `image_name` given as the empty string and a tag,
the image is not `image_name + ':' + tag` (Python truthiness makes the empty
string fall back to the default image name). -/
theorem claim9_counterexample :
    tensorFlowServingInit "m" (some "") (some "t") none ≠
      .ok ⟨"m", "" ++ ":" ++ "t"⟩ ∧
    tensorFlowServingInit "m" (some "") (some "t") none =
      .ok ⟨"m", "tensorflow/serving:t"⟩ := by
  constructor
  · decide
  · rfl

/-- Claim C9 (amended): the constructor raises `ValueError` iff tag and digest are
both provided or both absent; with exactly one provided the image is the
resolved image name (defaulting to `tensorflow/serving` when the argument is
absent or empty) joined with `:tag` or `@digest`. -/
theorem claim9_tfs_init (m : String) (img tag dig : Option String) :
    ((∃ e, tensorFlowServingInit m img tag dig = .error e) ↔ tag.isNone = dig.isNone) ∧
    (∀ t, tag = some t → dig = none →
      tensorFlowServingInit m img tag dig = .ok ⟨m, resolveImageName img ++ ":" ++ t⟩) ∧
    (∀ d, tag = none → dig = some d →
      tensorFlowServingInit m img tag dig = .ok ⟨m, resolveImageName img ++ "@" ++ d⟩) := by
  cases tag with
  | none =>
    cases dig with
    | none =>
      refine ⟨⟨fun _ => rfl, fun _ => ⟨_, rfl⟩⟩, ?_, ?_⟩
      · intro t ht; exact absurd ht (by simp)
      · intro d _ hd; exact absurd hd (by simp)
    | some d =>
      refine ⟨⟨fun he => ?_, fun habs => ?_⟩, ?_, ?_⟩
      · rcases he with ⟨e, he⟩
        have : tensorFlowServingInit m img none (some d) =
            .ok ⟨m, resolveImageName img ++ "@" ++ d⟩ := by
          simp [tensorFlowServingInit]
        rw [this] at he
        exact Except.noConfusion he
      · exact absurd habs (by simp)
      · intro t ht; exact absurd ht (by simp)
      · intro d' _ hd
        have hd' : d = d' := by injection hd
        subst hd'
        simp [tensorFlowServingInit]
  | some t =>
    cases dig with
    | none =>
      refine ⟨⟨fun he => ?_, fun habs => ?_⟩, ?_, ?_⟩
      · rcases he with ⟨e, he⟩
        have : tensorFlowServingInit m img (some t) none =
            .ok ⟨m, resolveImageName img ++ ":" ++ t⟩ := by
          simp [tensorFlowServingInit]
        rw [this] at he
        exact Except.noConfusion he
      · exact absurd habs (by simp)
      · intro t' ht _
        have ht' : t = t' := by injection ht
        subst ht'
        simp [tensorFlowServingInit]
      · intro d _ hd; exact absurd hd (by simp)
    | some d =>
      refine ⟨⟨fun _ => rfl,
        fun _ => ⟨"Exactly one of tag or digest should be used.", rfl⟩⟩, ?_, ?_⟩
      · intro t' _ hd; exact absurd hd (by simp)
      · intro d' ht; exact absurd ht (by simp)

/-- Witness for C9 (amended claim) at concrete arguments. -/
theorem claim9_tfs_init_witness :
    tensorFlowServingInit "model" none (some "latest") none =
      .ok ⟨"model", "tensorflow/serving:latest"⟩ ∧
    (∃ e, tensorFlowServingInit "model" none none none = .error e) :=
  ⟨(claim9_tfs_init "model" none (some "latest") none).2.1 "latest" rfl rfl,
    (claim9_tfs_init "model" none none none).1.mpr rfl⟩

theorem resolveImageName_config (s : String) :
    resolveImageName (if s = "" then none else some s) = resolveImageName (some s) := by
  by_cases h : s = "" <;> simp [resolveImageName, h]

/-- Claim C10: `parse_serving_binaries` on a spec whose oneof is
`tensorflow_serving` returns one binary per tag then one per digest, in listed
order, each carrying the spec's model name; on any other oneof value it raises
`ValueError`. -/
theorem claim10_parse_serving (spec : ServingSpec) :
    (spec.serving_binary = some "tensorflow_serving" →
      parse_serving_binaries spec = .ok (
        spec.tensorflow_serving.tags.map (fun t =>
          ⟨spec.model_name,
            resolveImageName (some spec.tensorflow_serving.image_name) ++ ":" ++ t⟩) ++
        spec.tensorflow_serving.digests.map (fun d =>
          ⟨spec.model_name,
            resolveImageName (some spec.tensorflow_serving.image_name) ++ "@" ++ d⟩))) ∧
    (spec.serving_binary ≠ some "tensorflow_serving" →
      ∃ e, parse_serving_binaries spec = .error e) := by
  constructor
  · intro hw
    have htags : mapE spec.tensorflow_serving.tags (fun t =>
        tensorFlowServingInit spec.model_name
          (if spec.tensorflow_serving.image_name = "" then none
            else some spec.tensorflow_serving.image_name) (some t) none) =
        .ok (spec.tensorflow_serving.tags.map (fun t =>
          ⟨spec.model_name,
            resolveImageName (some spec.tensorflow_serving.image_name) ++ ":" ++ t⟩)) := by
      apply mapE_ok_of_all
      intro t _
      rw [← resolveImageName_config spec.tensorflow_serving.image_name]
      simp [tensorFlowServingInit]
    have hdigs : mapE spec.tensorflow_serving.digests (fun d =>
        tensorFlowServingInit spec.model_name
          (if spec.tensorflow_serving.image_name = "" then none
            else some spec.tensorflow_serving.image_name) none (some d)) =
        .ok (spec.tensorflow_serving.digests.map (fun d =>
          ⟨spec.model_name,
            resolveImageName (some spec.tensorflow_serving.image_name) ++ "@" ++ d⟩)) := by
      apply mapE_ok_of_all
      intro d _
      rw [← resolveImageName_config spec.tensorflow_serving.image_name]
      simp [tensorFlowServingInit]
    simp only [parse_serving_binaries, hw, if_pos, htags, hdigs]
  · intro hw
    refine ⟨"Invalid serving_binary", ?_⟩
    simp only [parse_serving_binaries, hw, if_neg, if_false]

/-- Witness for C10 at a concrete serving spec. -/
theorem claim10_parse_serving_witness :
    parse_serving_binaries ⟨"m", some "tensorflow_serving", ⟨"", ["t1", "t2"], ["sha"]⟩⟩ =
      .ok [⟨"m", "tensorflow/serving:t1"⟩, ⟨"m", "tensorflow/serving:t2"⟩,
        ⟨"m", "tensorflow/serving@sha"⟩] ∧
    (∃ e, parse_serving_binaries ⟨"m", none, ⟨"", [], []⟩⟩ = .error e) :=
  ⟨(claim10_parse_serving ⟨"m", some "tensorflow_serving", ⟨"", ["t1", "t2"], ["sha"]⟩⟩).1 rfl,
    (claim10_parse_serving ⟨"m", none, ⟨"", [], []⟩⟩).2 (by simp)⟩

theorem visit_error_shape {g : List Node} {frontier visited : List String}
    {e : PartitionError} (h : visit g frontier visited = .error e) :
    ∃ m, e = .missingNodeError m ∧ lookupNode g m = none :=
  visitFuel_error_shape _ g frontier visited e (by rw [visit_eq_visitFuel, h])

theorem mem_specNodeNames_sub {g : List Node} {gr : Group} {x : String} :
    x ∈ specNodeNames (mkSubgraphSpec g gr) ↔ ∃ n ∈ g, n.name = x ∧ x ∈ gr.nodes := by
  simp only [specNodeNames, mkSubgraphSpec, Option.getD_some, subgraphOf, List.mem_map,
    List.mem_filter]
  constructor
  · rintro ⟨n, ⟨hng, hnn⟩, hname⟩
    exact ⟨n, hng, hname, by rw [← hname]; simpa using hnn⟩
  · rintro ⟨n, hng, hname, hx⟩
    exact ⟨n, ⟨hng, by rw [hname]; simpa using hx⟩, hname⟩

/-- Claim C7: partitioning fails with `UnresolvedOutputError` when a declared output
is absent, fails with `MissingNodeError` when (all outputs being present) some
reachable node's input references an absent node, and a failed run produces no
specs. -/
theorem claim7_error_conditions (g : List Node) (outputs : List String) :
    ((∃ o ∈ outputs, lookupNode g o = none) →
      ∃ o, partition_graph g outputs = .error (.unresolvedOutputError o)) ∧
    ((∀ o ∈ outputs, (lookupNode g o).isSome) →
      (∃ x nd, Reachable g outputs x ∧ lookupNode g x = some nd ∧
        nd.is_remote_op = false ∧ ∃ i ∈ nd.inputs, lookupNode g i = none) →
      ∃ m, partition_graph g outputs = .error (.missingNodeError m)) ∧
    (∀ e, partition_graph g outputs = .error e →
      ¬∃ specs, partition_graph g outputs = .ok specs) := by
  refine ⟨?_, ?_, ?_⟩
  · rintro ⟨o, ho, hnone⟩
    cases hfind : outputs.find? (fun q => (lookupNode g q).isNone) with
    | some o' =>
      refine ⟨o', ?_⟩
      simp [partition_graph, hfind]
    | none =>
      exfalso
      exact List.find?_eq_none.mp hfind o ho (by simp [hnone])
  · rintro hall ⟨x, nd, hreach, hnd, hro, i, hi, hdang⟩
    cases hfind : outputs.find? (fun q => (lookupNode g q).isNone) with
    | some o' =>
      exfalso
      have ho' := List.mem_of_find?_eq_some hfind
      have hp := List.find?_some hfind
      have := hall o' ho'
      revert this hp
      cases lookupNode g o' <;> simp
    | none =>
      cases hmap : mapE (outputs.filter (fun q => !isRemoteName g q)) (visitOut g) with
      | ok finals =>
        exfalso
        rcases reachable_iff_output.mp hreach with ⟨o, ho, hrox⟩
        cases hrem : isRemoteName g o with
        | true =>
          have hx : x = o := reachable_singleton_remote hrem hrox
          subst hx
          have hfalse : isRemoteName g x = false := by simp [isRemoteName, hnd, hro]
          rw [hfalse] at hrem
          exact absurd hrem (by simp)
        | false =>
          rcases finals_of_output hmap o ho hrem with ⟨fin, _, hvisit⟩
          have hxf : x ∈ fin := visit_complete hvisit x hrox
          rcases visit_closed hvisit x hxf with ⟨nd', hnd', hclose⟩
          rw [hnd] at hnd'
          cases hnd'
          have hif : i ∈ fin := hclose hro i hi
          have := visit_members_present hvisit i hif
          rw [hdang] at this
          exact absurd this (by simp)
      | error e =>
        rcases mapE_error_mem hmap with ⟨o, _, hvoe⟩
        rcases visit_error_shape (visitOut_error hvoe) with ⟨m, he, _⟩
        refine ⟨m, ?_⟩
        rw [← he]
        simp [partition_graph, hfind, hmap]
  · intro e he ⟨specs, hs⟩
    rw [he] at hs
    exact Except.noConfusion hs

/-- Witness for C7: a missing declared output, and a dangling input
reference, each on a concrete one-node graph. -/
theorem claim7_error_conditions_witness :
    (∃ o, partition_graph [⟨"a", "Add", [], false⟩] ["a", "b"] =
      .error (.unresolvedOutputError o)) ∧
    (∃ m, partition_graph [⟨"a", "Add", ["ghost"], false⟩] ["a"] =
      .error (.missingNodeError m)) :=
  ⟨(claim7_error_conditions [⟨"a", "Add", [], false⟩] ["a", "b"]).1
      ⟨"b", by simp, by rfl⟩,
    (claim7_error_conditions [⟨"a", "Add", ["ghost"], false⟩] ["a"]).2.1 (by decide)
      ⟨"a", ⟨"a", "Add", ["ghost"], false⟩, Reachable.base "a" (by simp), by rfl, rfl,
        "ghost", by simp, by rfl⟩⟩

/-- Claim C8: a declared output that is itself a remote op yields a remote-op spec
directly and never appears in a subgraph spec's node set; a zero-input
non-remote node that is not a declared output is never elevated to its own
spec (its name is never among any spec's output names). -/
theorem claim8_edge_cases (g : List Node) (outputs : List String)
    (specs : List ExecutionSpec) (hok : partition_graph g outputs = .ok specs) :
    (∀ o ∈ outputs, isRemoteName g o = true →
      (∃ spec ∈ specs, spec.is_remote_op = true ∧ spec.output_names = [o]) ∧
      (∀ spec ∈ specs, spec.is_remote_op = false → o ∉ specNodeNames spec)) ∧
    (∀ x nd, lookupNode g x = some nd → nd.inputs = [] → nd.is_remote_op = false →
      x ∉ outputs → ∀ spec ∈ specs, x ∉ spec.output_names) := by
  rcases partition_graph_ok hok with ⟨finals, hfind, hmap, hspec⟩
  subst hspec
  constructor
  · intro o ho hro
    constructor
    · have hmem : o ∈ remoteNamesOf g outputs (groupsOf g finals) :=
        mem_remoteNamesOf.mpr (Or.inl ⟨ho, hro⟩)
      exact ⟨mkRemoteSpec o, List.mem_append_right _ (List.mem_map_of_mem mkRemoteSpec hmem),
        rfl, rfl⟩
    · intro spec hs hsro
      rcases List.mem_append.mp hs with hs | hs
      · rcases List.mem_map.mp hs with ⟨gr, hgr, hgr'⟩
        rw [← hgr']
        intro hmem
        rcases mem_specNodeNames_sub.mp hmem with ⟨n, _, _, honodes⟩
        rcases (groupsOf_inv gr hgr).2.1 o honodes with ⟨o', fin, _, _, _, hxrem⟩
        rw [hro] at hxrem
        exact absurd hxrem (by simp)
      · rcases List.mem_map.mp hs with ⟨r, _, hr⟩
        rw [← hr] at hsro
        exact absurd hsro (by simp [mkRemoteSpec])
  · intro x nd hnd hinputs hro hnout spec hs hxout
    rcases List.mem_append.mp hs with hs | hs
    · rcases List.mem_map.mp hs with ⟨gr, hgr, hgr'⟩
      rw [← hgr'] at hxout
      have hxo : x ∈ gr.outs := hxout
      rcases (groupsOf_inv gr hgr).1 x hxo with ⟨fin, hfin, _, _⟩
      rcases finals_mem hmap (x, fin) hfin with ⟨hxmem, _, _⟩
      exact hnout hxmem
    · rcases List.mem_map.mp hs with ⟨r, hr, hr'⟩
      rw [← hr'] at hxout
      have hxr : x = r := by simpa [mkRemoteSpec] using hxout
      subst hxr
      rcases mem_remoteNamesOf.mp hr with ⟨hxo, _⟩ | ⟨gr, hgr, hb⟩
      · exact hnout hxo
      · rcases (groupsOf_inv gr hgr).2.2 x hb with ⟨o', fin, _, _, hxrem⟩
        have hfalse : isRemoteName g x = false := by simp [isRemoteName, hnd, hro]
        rw [hfalse] at hxrem
        exact absurd hxrem (by simp)

/-- Witness for C8 at the example graph: `r2` is a remote declared output and
gets its own remote-op spec; the zero-input placeholder `x` never names an
output of any spec. -/
theorem claim8_edge_cases_witness :
    partition_graph exampleGraph exampleOutputs = .ok exampleSpecs ∧
    (∃ spec ∈ exampleSpecs, spec.is_remote_op = true ∧ spec.output_names = ["r2"]) ∧
    (∀ spec ∈ exampleSpecs, "x" ∉ spec.output_names) :=
  ⟨by rfl,
    ((claim8_edge_cases exampleGraph exampleOutputs exampleSpecs (by rfl)).1 "r2"
      (by simp [exampleOutputs]) (by rfl)).1,
    (claim8_edge_cases exampleGraph exampleOutputs exampleSpecs (by rfl)).2 "x"
      ⟨"x", "Placeholder", [], false⟩ (by rfl) rfl rfl (by decide)⟩

/-! ## Wire format for execution-spec serialization

Modelled from the spec: section 6 fixes the graph input format as a serialized
node list (name, operation kind, ordered input references, remote-op marker)
and requires each non-remote spec to serialize its subgraph in that same wire
format so it can be independently reloaded. -/

/-- A token of the wire format. -/
inductive Tok where
  | str (s : String)
  | num (n : Nat)
  | flag (b : Bool)
deriving DecidableEq, Repr

/-- Modelled from the spec: serialization of one node — name, operation kind,
input count, the input references, and the remote-op marker. -/
def serializeNode (n : Node) : List Tok :=
  [.str n.name, .str n.op_kind, .num n.inputs.length] ++ n.inputs.map Tok.str ++
    [.flag n.is_remote_op]

/-- Modelled from the spec: serialization of a graph definition — node count
followed by the serialized nodes. -/
def serializeGraphDef (g : List Node) : List Tok :=
  .num g.length :: (g.map serializeNode).join

/-- Error raised by the graph loader on malformed serialized input. -/
inductive ParseError where
  | malformedGraphDef
deriving DecidableEq, Repr

/-- Parse a run of `k` string tokens. -/
def parseStrs : Nat → List Tok → Except ParseError (List String × List Tok)
  | 0, toks => .ok ([], toks)
  | k + 1, .str s :: toks =>
    match parseStrs k toks with
    | .ok (ss, rest) => .ok (s :: ss, rest)
    | .error e => .error e
  | _ + 1, _ => .error .malformedGraphDef

/-- Parse one serialized node. -/
def parseNode : List Tok → Except ParseError (Node × List Tok)
  | .str name :: .str op :: .num k :: toks =>
    (match parseStrs k toks with
    | .ok (inputs, .flag b :: rest) => .ok (⟨name, op, inputs, b⟩, rest)
    | .ok (_, _) => .error .malformedGraphDef
    | .error e => .error e)
  | _ => .error .malformedGraphDef

/-- Parse a run of `k` serialized nodes. -/
def parseNodes : Nat → List Tok → Except ParseError (List Node × List Tok)
  | 0, toks => .ok ([], toks)
  | k + 1, toks =>
    match parseNode toks with
    | .ok (n, rest) =>
      (match parseNodes k rest with
      | .ok (ns, rest') => .ok (n :: ns, rest')
      | .error e => .error e)
    | .error e => .error e

/-- Modelled from the spec: `load_graph` applied to the wire format — reparse
a serialized graph definition, failing with `ParseError` on malformed input. -/
def parseGraphDef (toks : List Tok) : Except ParseError (List Node) :=
  match toks with
  | .num k :: rest =>
    (match parseNodes k rest with
    | .ok (ns, []) => .ok ns
    | .ok (_, _ :: _) => .error .malformedGraphDef
    | .error e => .error e)
  | _ => .error .malformedGraphDef

theorem parseStrs_serialize (ss : List String) (rest : List Tok) :
    parseStrs ss.length (ss.map Tok.str ++ rest) = .ok (ss, rest) := by
  induction ss with
  | nil => simp [parseStrs]
  | cons s ss ih => simp [parseStrs, ih]

theorem parseNode_serialize (n : Node) (rest : List Tok) :
    parseNode (serializeNode n ++ rest) = .ok (n, rest) := by
  have h : serializeNode n ++ rest =
      .str n.name :: .str n.op_kind :: .num n.inputs.length ::
        (n.inputs.map Tok.str ++ (.flag n.is_remote_op :: rest)) := by
    simp [serializeNode]
  rw [h, parseNode, parseStrs_serialize]

theorem parseNodes_serialize (g : List Node) (rest : List Tok) :
    parseNodes g.length ((g.map serializeNode).join ++ rest) = .ok (g, rest) := by
  induction g generalizing rest with
  | nil => simp [parseNodes]
  | cons n g ih =>
    have h : ((n :: g).map serializeNode).join ++ rest =
        serializeNode n ++ ((g.map serializeNode).join ++ rest) := by
      simp
    rw [List.length_cons, h, parseNodes, parseNode_serialize]
    simp [ih]

theorem parseGraphDef_serialize (g : List Node) :
    parseGraphDef (serializeGraphDef g) = .ok g := by
  have h := parseNodes_serialize g []
  rw [List.append_nil] at h
  rw [serializeGraphDef, parseGraphDef, h]

/-- Importability of a subgraph relative to its declared input names: every
input reference of every node resolves to a node of the subgraph or to a
declared input. -/
def importable (sg : List Node) (input_names : List String) : Prop :=
  ∀ n ∈ sg, ∀ i ∈ n.inputs, (∃ m ∈ sg, m.name = i) ∨ i ∈ input_names

/-- Claim C4: each non-remote spec's subgraph survives a serialize/parse round trip
through the wire format, the reloaded graph contains every declared output of
the spec, and it is importable relative to the spec's input names. -/
theorem claim4_roundtrip (g : List Node) (outputs : List String)
    (specs : List ExecutionSpec) (hnd : (g.map Node.name).Nodup)
    (hok : partition_graph g outputs = .ok specs) :
    ∀ spec ∈ specs, spec.is_remote_op = false →
      ∃ sg, spec.subgraph = some sg ∧
        parseGraphDef (serializeGraphDef sg) = .ok sg ∧
        (∀ o ∈ spec.output_names, o ∈ sg.map Node.name) ∧
        importable sg spec.input_names := by
  rcases partition_graph_ok hok with ⟨finals, hfind, hmap, hspec⟩
  subst hspec
  intro spec hs hro
  rcases List.mem_append.mp hs with hs | hs
  · rcases List.mem_map.mp hs with ⟨gr, hgr, hgr'⟩
    rw [← hgr']
    refine ⟨subgraphOf g gr, rfl, parseGraphDef_serialize _, ?_, ?_⟩
    · intro o ho
      have ho' : o ∈ gr.outs := ho
      rcases (groupsOf_inv gr hgr).1 o ho' with ⟨fin, hfin, hN, _⟩
      rcases finals_mem hmap (o, fin) hfin with ⟨_, horem, hvisit⟩
      have hofin : o ∈ fin := (visit_subset hvisit).2 o (by simp)
      have honodes : o ∈ gr.nodes := hN o hofin horem
      have hsome := visit_members_present hvisit o hofin
      rcases lookup_isSome_iff.mp hsome with ⟨n, hng, hname⟩
      exact mem_specNodeNames_sub.mpr ⟨n, hng, hname, honodes⟩
    · intro n hn i hi
      rcases List.mem_filter.mp hn with ⟨hng, hnn⟩
      have hnn' : n.name ∈ gr.nodes := by simpa using hnn
      rcases (groupsOf_inv gr hgr).2.1 n.name hnn' with ⟨o, fin, houts, hfin, hnamefin, _⟩
      rcases finals_mem hmap (o, fin) hfin with ⟨_, _, hvisit⟩
      have hlook : lookupNode g n.name = some n := lookup_of_mem_nodup hnd hng
      rcases visit_closed hvisit n.name hnamefin with ⟨nd', hnd', hclose⟩
      rw [hlook] at hnd'
      injection hnd' with hnd''
      subst hnd''
      have hnro : n.is_remote_op = false := by
        rcases (groupsOf_inv gr hgr).2.1 n.name hnn' with ⟨_, _, _, _, _, hrem⟩
        simpa [isRemoteName, hlook] using hrem
      have hif : i ∈ fin := hclose hnro i hi
      rcases (groupsOf_inv gr hgr).1 o houts with ⟨fin', hfin', hN, hB⟩
      rcases finals_mem hmap (o, fin') hfin' with ⟨_, _, hvisit'⟩
      have hfineq : fin' = fin := by
        rw [hvisit] at hvisit'
        injection hvisit' with heq
        exact heq.symm
      subst hfineq
      cases hirem : isRemoteName g i with
      | false =>
        have hinodes : i ∈ gr.nodes := hN i hif hirem
        have hsome := visit_members_present hvisit i hif
        rcases lookup_isSome_iff.mp hsome with ⟨m, hmg, hmi⟩
        refine Or.inl ⟨m, ?_, hmi⟩
        exact List.mem_filter.mpr ⟨hmg, by rw [hmi]; simpa using hinodes⟩
      | true =>
        have hib : i ∈ gr.bounds := hB i hif hirem
        exact Or.inr (mem_sortNames.mpr (List.mem_dedup.mpr hib))
  · rcases List.mem_map.mp hs with ⟨r, _, hr⟩
    rw [← hr] at hro
    exact absurd hro (by simp [mkRemoteSpec])

/-- Witness for C4 at the example graph: the single subgraph spec round-trips
and is importable. -/
theorem claim4_roundtrip_witness :
    (exampleGraph.map Node.name).Nodup ∧
    partition_graph exampleGraph exampleOutputs = .ok exampleSpecs ∧
    ∃ sg, (⟨some [⟨"x", "Placeholder", [], false⟩, ⟨"y", "Add", ["x", "r1"], false⟩],
        ["r1"], ["y"], false⟩ : ExecutionSpec).subgraph = some sg ∧
      parseGraphDef (serializeGraphDef sg) = .ok sg ∧
      (∀ o ∈ (⟨some [⟨"x", "Placeholder", [], false⟩, ⟨"y", "Add", ["x", "r1"], false⟩],
        ["r1"], ["y"], false⟩ : ExecutionSpec).output_names, o ∈ sg.map Node.name) ∧
      importable sg (⟨some [⟨"x", "Placeholder", [], false⟩, ⟨"y", "Add", ["x", "r1"], false⟩],
        ["r1"], ["y"], false⟩ : ExecutionSpec).input_names :=
  ⟨by decide, by rfl,
    claim4_roundtrip exampleGraph exampleOutputs exampleSpecs (by decide) (by rfl)
      ⟨some [⟨"x", "Placeholder", [], false⟩, ⟨"y", "Add", ["x", "r1"], false⟩],
        ["r1"], ["y"], false⟩ (by simp [exampleSpecs]) rfl⟩

theorem pairwise_of_true {α : Type} {R : α → α → Prop} (h : ∀ a b, R a b) :
    ∀ l : List α, l.Pairwise R := by
  intro l
  induction l with
  | nil => exact List.Pairwise.nil
  | cons a l ih => exact List.Pairwise.cons (fun b _ => h a b) ih

/-- Claim C1: partition coverage — a name belongs to some subgraph spec's node set
or to some remote-op spec's output names exactly when it is backward reachable
(with boundary cuts) from the declared outputs; and no name belongs to two
different subgraph specs. -/
theorem claim1_partition_coverage (g : List Node) (outputs : List String)
    (specs : List ExecutionSpec) (hok : partition_graph g outputs = .ok specs) :
    (∀ x, ((∃ spec ∈ specs, spec.is_remote_op = false ∧ x ∈ specNodeNames spec) ∨
        (∃ spec ∈ specs, spec.is_remote_op = true ∧ x ∈ spec.output_names)) ↔
      Reachable g outputs x) ∧
    specs.Pairwise (fun s t => s.is_remote_op = false → t.is_remote_op = false →
      ∀ x, x ∈ specNodeNames s → x ∉ specNodeNames t) := by
  rcases partition_graph_ok hok with ⟨finals, hfind, hmap, hspec⟩
  subst hspec
  constructor
  · intro x
    constructor
    · intro h
      rcases h with ⟨spec, hs, hsro, hx⟩ | ⟨spec, hs, hsro, hx⟩
      · rcases List.mem_append.mp hs with hs | hs
        · rcases List.mem_map.mp hs with ⟨gr, hgr, hgr'⟩
          rw [← hgr'] at hx
          rcases mem_specNodeNames_sub.mp hx with ⟨n, _, _, hxnodes⟩
          rcases (groupsOf_inv gr hgr).2.1 x hxnodes with ⟨o, fin, _, hfin, hxf, _⟩
          rcases finals_mem hmap (o, fin) hfin with ⟨ho, _, hvisit⟩
          exact reachable_mono ho (visit_sound hvisit x hxf)
        · rcases List.mem_map.mp hs with ⟨r, _, hr⟩
          rw [← hr] at hsro
          exact absurd hsro (by simp [mkRemoteSpec])
      · rcases List.mem_append.mp hs with hs | hs
        · rcases List.mem_map.mp hs with ⟨gr, _, hgr'⟩
          rw [← hgr'] at hsro
          exact absurd hsro (by simp [mkSubgraphSpec])
        · rcases List.mem_map.mp hs with ⟨r, hr, hr'⟩
          rw [← hr'] at hx
          have hxr : x = r := by simpa [mkRemoteSpec] using hx
          subst hxr
          rcases mem_remoteNamesOf.mp hr with ⟨hxo, _⟩ | ⟨gr, hgr, hb⟩
          · exact Reachable.base x hxo
          · rcases (groupsOf_inv gr hgr).2.2 x hb with ⟨o, fin, hfin, hxf, _⟩
            rcases finals_mem hmap (o, fin) hfin with ⟨ho, _, hvisit⟩
            exact reachable_mono ho (visit_sound hvisit x hxf)
    · intro hreach
      rcases reachable_iff_output.mp hreach with ⟨o, ho, hrox⟩
      cases hrem : isRemoteName g o with
      | true =>
        have hx : x = o := reachable_singleton_remote hrem hrox
        subst hx
        refine Or.inr ⟨mkRemoteSpec x, ?_, rfl, by simp [mkRemoteSpec]⟩
        exact List.mem_append_right _ (List.mem_map_of_mem mkRemoteSpec
          (mem_remoteNamesOf.mpr (Or.inl ⟨ho, hrem⟩)))
      | false =>
        rcases finals_of_output hmap o ho hrem with ⟨fin, hfin, hvisit⟩
        have hxf : x ∈ fin := visit_complete hvisit x hrox
        rcases groupsOf_outs_covered (o, fin) hfin with ⟨gr, hgr, houts⟩
        rcases (groupsOf_inv gr hgr).1 o houts with ⟨fin', hfin', hN, hB⟩
        rcases finals_mem hmap (o, fin') hfin' with ⟨_, _, hvisit'⟩
        have hfineq : fin' = fin := by
          rw [hvisit] at hvisit'
          injection hvisit' with heq
          exact heq.symm
        subst hfineq
        cases hxrem : isRemoteName g x with
        | false =>
          have hxnodes : x ∈ gr.nodes := hN x hxf hxrem
          have hsome := visit_members_present hvisit x hxf
          rcases lookup_isSome_iff.mp hsome with ⟨n, hng, hname⟩
          refine Or.inl ⟨mkSubgraphSpec g gr, ?_, rfl, ?_⟩
          · exact List.mem_append_left _ (List.mem_map_of_mem (mkSubgraphSpec g) hgr)
          · exact mem_specNodeNames_sub.mpr ⟨n, hng, hname, hxnodes⟩
        | true =>
          have hxb : x ∈ gr.bounds := hB x hxf hxrem
          refine Or.inr ⟨mkRemoteSpec x, ?_, rfl, by simp [mkRemoteSpec]⟩
          exact List.mem_append_right _ (List.mem_map_of_mem mkRemoteSpec
            (mem_remoteNamesOf.mpr (Or.inr ⟨gr, hgr, hxb⟩)))
  · rw [List.pairwise_append]
    refine ⟨?_, ?_, ?_⟩
    · apply List.pairwise_map.mpr
      apply List.Pairwise.imp ?_ (groupsOf_disjoint finals)
      intro gr1 gr2 hdisj _ _ x hx1 hx2
      rcases mem_specNodeNames_sub.mp hx1 with ⟨_, _, _, hx1'⟩
      rcases mem_specNodeNames_sub.mp hx2 with ⟨_, _, _, hx2'⟩
      exact hdisj x hx1' hx2'
    · apply List.pairwise_map.mpr
      apply pairwise_of_true
      intro a b hfalse
      exact absurd hfalse (by simp [mkRemoteSpec])
    · intro s hs t ht hsro htro
      rcases List.mem_map.mp ht with ⟨r, _, hr⟩
      rw [← hr] at htro
      exact absurd htro (by simp [mkRemoteSpec])

/-- Witness for C1 at the example graph: the placeholder `x` is reachable from
the declared output `y` and is covered by the subgraph spec. -/
theorem claim1_partition_coverage_witness :
    partition_graph exampleGraph exampleOutputs = .ok exampleSpecs ∧
    Reachable exampleGraph exampleOutputs "x" ∧
    (∃ spec ∈ exampleSpecs, spec.is_remote_op = false ∧ "x" ∈ specNodeNames spec) := by
  have hreach : Reachable exampleGraph exampleOutputs "x" :=
    Reachable.step "y" "x" ⟨"y", "Add", ["x", "r1"], false⟩
      (Reachable.base "y" (by simp [exampleOutputs])) (by rfl) rfl (by simp)
  refine ⟨by rfl, hreach, ?_⟩
  have h := (claim1_partition_coverage exampleGraph exampleOutputs exampleSpecs (by rfl)).1 "x"
  rcases h.mpr hreach with hl | hr
  · exact hl
  · exfalso
    rcases hr with ⟨spec, hs, hsro, hx⟩
    rcases List.mem_cons.mp hs with h1 | hs'
    · rw [h1] at hsro
      simp at hsro
    · rcases List.mem_cons.mp hs' with h2 | hs''
      · rw [h2] at hx
        simp at hx
      · rcases List.mem_cons.mp hs'' with h3 | habs
        · rw [h3] at hx
          simp at hx
        · simp at habs

end TFX
